import Mathlib

/-!
Verification of the exdenv loader against its specification.

The development embeds, over lists of characters, the dotenv-style line
grammar (the LINE regular expression together with its JavaScript matching
semantics: leftmost match at line starts, ordered alternation, greedy and
lazy repetition with backtracking), the value post-processing (trim, outer
quote stripping, escape expansion for double-quoted values), the global
scan that builds the parsed mapping, and the loadEnv pipeline (environment
discriminator, path resolution, file loading with collapsed read failures,
merge, schema validation, final overlay onto the process environment).
-/

namespace Exdenv

/-- Backtracking alternation on optional results: the second branch is
tried only when the first fails, mirroring ordered regex alternation. -/
def oalt (a : Option α) (b : Unit → Option α) : Option α :=
  match a with
  | some x => some x
  | none => b ()

@[simp] theorem oalt_some (x : α) (b : Unit → Option α) : oalt (some x) b = some x := rfl

@[simp] theorem oalt_none (b : Unit → Option α) : oalt none b = b () := rfl

/-! ## Character classes (JavaScript semantics) -/

/-- The single quote character. -/
def squoteC : Char := Char.ofNat 39

/-- The double quote character. -/
def dquoteC : Char := Char.ofNat 34

/-- The backtick character. -/
def bquoteC : Char := Char.ofNat 96

/-- The hash character that begins a comment. -/
def hashC : Char := Char.ofNat 35

/-- The backslash character. -/
def bslashC : Char := Char.ofNat 92

/-- JavaScript regex class backslash-s (also the character set removed by
the JavaScript string trim operation): tab, line feed, vertical tab, form
feed, carriage return, space, no-break space, ogham space mark, the
EN QUAD .. HAIR SPACE range, line separator, paragraph separator, narrow
no-break space, medium mathematical space, ideographic space, zero width
no-break space. -/
def isJsWs (c : Char) : Bool :=
  c.toNat = 9 || c.toNat = 10 || c.toNat = 11 || c.toNat = 12 || c.toNat = 13 ||
  c.toNat = 32 || c.toNat = 160 || c.toNat = 5760 ||
  (8192 ≤ c.toNat && c.toNat ≤ 8202) ||
  c.toNat = 8232 || c.toNat = 8233 || c.toNat = 8239 || c.toNat = 8287 ||
  c.toNat = 12288 || c.toNat = 65279

/-- JavaScript line terminators: LF, CR, LINE SEPARATOR, PARAGRAPH
SEPARATOR. In multiline mode the caret matches after these and the dollar
matches before these; the dot class excludes them. -/
def isLineTerm (c : Char) : Bool :=
  c.toNat = 10 || c.toNat = 13 || c.toNat = 8232 || c.toNat = 8233

/-- JavaScript regex class backslash-w: ASCII letters, digits, underscore. -/
def isWordChar (c : Char) : Bool :=
  (97 ≤ c.toNat && c.toNat ≤ 122) || (65 ≤ c.toNat && c.toNat ≤ 90) ||
  (48 ≤ c.toNat && c.toNat ≤ 57) || c.toNat = 95

/-- The key class of the LINE regex: word characters, dots, dashes. -/
def isKeyChar (c : Char) : Bool :=
  isWordChar c || c.toNat = 46 || c.toNat = 45

/-- One of the three quote characters recognised by the value grammar. -/
def isQuoteC (c : Char) : Bool :=
  c = squoteC || c = dquoteC || c = bquoteC

/-- The unquoted value class of the LINE regex: any character except the
hash, carriage return and line feed. -/
def isPlainChar (c : Char) : Bool :=
  !(c = hashC || c = '\r' || c = '\n')

/-! ## Mappings as JavaScript objects

A JavaScript object literal used as a string map: an insertion-ordered
association list with unique keys. Assigning to an existing key replaces
the value in place; assigning to a new key appends. -/

/-- Parsed environments and option maps: ordered key/value pairs. -/
abbrev Obj := List (String × String)

/-- Property read: first (and in well-formed objects only) binding wins. -/
def getObj (o : Obj) (k : String) : Option String :=
  match o with
  | [] => none
  | p :: t => if p.1 = k then some p.2 else getObj t k

/-- Property write: replace in place when the key exists, else append. -/
def setObj (o : Obj) (k v : String) : Obj :=
  match o with
  | [] => [(k, v)]
  | p :: t => if p.1 = k then (k, v) :: t else p :: setObj t k v

/-- Object.assign: copy every binding of the source onto the target,
in source order. -/
def objAssign (target src : Obj) : Obj :=
  src.foldl (fun t p => setObj t p.1 p.2) target

/-! ## Line ending normalization

The parse function first rewrites every CR LF pair and every lone CR to a
single LF, via a global replace of the regex CR LF-optional. -/

/-- Normalize carriage returns: CR LF and lone CR both become LF. -/
def normalizeNewlines : List Char → List Char
  | [] => []
  | c :: t =>
    if c = '\r' then
      match t with
      | d :: t2 => if d = '\n' then '\n' :: normalizeNewlines t2 else '\n' :: normalizeNewlines (d :: t2)
      | [] => ['\n']
    else c :: normalizeNewlines t

/-! ## The LINE regex, hand-compiled

The LINE regex of the source reads, with q ranging over the three quotes:

  caret ws* (export ws+)? ([word dot dash]+) (ws* eq ws*lazy | colon ws+lazy)
    ( ws* q (esc-q | non-q)* q   for each quote, else  [no hash no CR no LF]+ )?
    ws* (hash dot*)? dollar      with multiline and global flags.

Each node below is compiled to a continuation-passing matcher on
`List Char`; `oalt` realises ordered alternation and the backtracking of
greedy and lazy repetition. Capturing nodes pass the consumed characters
to their continuation. -/

/-- Greedy `ws*`: consume as much whitespace as possible, giving back on
failure of the continuation. -/
def wsStar (k : List Char → Option α) : List Char → Option α
  | [] => k []
  | c :: t =>
    if isJsWs c then oalt (wsStar k t) (fun _ => k (c :: t))
    else k (c :: t)

/-- Lazy `ws*?`: try the continuation first, then consume whitespace. -/
def wsStarLazy (k : List Char → Option α) : List Char → Option α
  | [] => k []
  | c :: t =>
    oalt (k (c :: t)) (fun _ => if isJsWs c then wsStarLazy k t else none)

/-- Capturing greedy `ws*`, used at the head of the quoted value branches
(the value capture group includes this leading whitespace). -/
def wsStarCap (k : List Char → List Char → Option α) (acc : List Char) : List Char → Option α
  | [] => k acc.reverse []
  | c :: t =>
    if isJsWs c then oalt (wsStarCap k (c :: acc) t) (fun _ => k acc.reverse (c :: t))
    else k acc.reverse (c :: t)

/-- Capturing greedy plus of a character class: used for the key class and
for the unquoted value class. Consumes at least one character, longest
first, giving back one character at a time on failure. -/
def rplus (p : Char → Bool) (k : List Char → List Char → Option α) (acc : List Char) : List Char → Option α
  | [] => if acc.isEmpty then none else k acc.reverse []
  | c :: t =>
    if p c then
      oalt (rplus p k (c :: acc) t)
        (fun _ => if acc.isEmpty then none else k acc.reverse (c :: t))
    else
      if acc.isEmpty then none else k acc.reverse (c :: t)

/-- Match a literal character sequence. -/
def dropLit : List Char → List Char → Option (List Char)
  | [], s => some s
  | _ :: _, [] => none
  | c :: p, d :: s => if d = c then dropLit p s else none

/-- The export branch body: the export keyword, at least one whitespace,
then the continuation. -/
def exportBranch (k : List Char → Option α) (s : List Char) : Option α :=
  match dropLit ("export".data) s with
  | some rest =>
    match rest with
    | c :: t => if isJsWs c then wsStar k t else none
    | [] => none
  | none => none

/-- Optional greedy `(export ws+)?`: try the export keyword followed by at
least one whitespace, fall back to the empty match. -/
def exportOpt (k : List Char → Option α) (s : List Char) : Option α :=
  oalt (exportBranch k s) (fun _ => k s)

/-- The equals separator branch: `ws* eq ws*lazy`. -/
def eqSep (k : List Char → Option α) (s : List Char) : Option α :=
  wsStar
    (fun s1 =>
      match s1 with
      | c :: t => if c = '=' then wsStarLazy k t else none
      | [] => none) s

/-- The colon separator branch: `colon ws+lazy` (no whitespace allowed
before the colon, at least one whitespace required after it). -/
def colonSep (k : List Char → Option α) (s : List Char) : Option α :=
  match s with
  | c :: t =>
    if c = ':' then
      match t with
      | d :: u => if isJsWs d then wsStarLazy k u else none
      | [] => none
    else none
  | [] => none

/-- The separator alternation, equals branch first. -/
def sepAlt (k : List Char → Option α) (s : List Char) : Option α :=
  oalt (eqSep k s) (fun _ => colonSep k s)

/-- Greedy star of the quoted-span interior `(esc-q | non-q)*`: the
two-character escape is preferred, then any non-quote character, then
stopping; captured characters accumulate reversed in `acc`. -/
def innerStar (q : Char) (k : List Char → List Char → Option α) (acc : List Char) : List Char → Option α
  | [] => k acc []
  | [b] =>
    if b ≠ q then oalt (innerStar q k (b :: acc) []) (fun _ => k acc [b])
    else k acc [b]
  | b :: c :: t =>
    if b = bslashC && c = q then
      oalt (innerStar q k (c :: b :: acc) t)
        (fun _ =>
          if b ≠ q then oalt (innerStar q k (b :: acc) (c :: t)) (fun _ => k acc (b :: c :: t))
          else k acc (b :: c :: t))
    else
      if b ≠ q then oalt (innerStar q k (b :: acc) (c :: t)) (fun _ => k acc (b :: c :: t))
      else k acc (b :: c :: t)

/-- Closing step of a quoted value branch: expect the closing quote and
hand the full capture (leading whitespace, quotes, interior) on. -/
def quoteClose (q : Char) (k : List Char → List Char → Option α) (ws : List Char)
    (accRev : List Char) (s2 : List Char) : Option α :=
  match s2 with
  | d :: u => if d = q then k (ws ++ q :: (accRev.reverse ++ [q])) u else none
  | [] => none

/-- The part of a quoted value branch after the leading whitespace: the
opening quote, the interior star, the closing quote. -/
def quoteAfterWs (q : Char) (k : List Char → List Char → Option α) (ws : List Char)
    (s1 : List Char) : Option α :=
  match s1 with
  | c :: t => if c = q then innerStar q (quoteClose q k ws) [] t else none
  | [] => none

/-- A quoted value branch `ws* q (esc-q | non-q)* q`, capturing the whole
branch including the leading whitespace and both quotes. -/
def quoteBranch (q : Char) (k : List Char → List Char → Option α) (s : List Char) : Option α :=
  wsStarCap (quoteAfterWs q k) [] s

/-- The optional value group: quoted branches in source order, then the
unquoted branch, then the empty (absent) match. -/
def valueOpt (k : Option (List Char) → List Char → Option α) (s : List Char) : Option α :=
  oalt (quoteBranch squoteC (fun cap s1 => k (some cap) s1) s) (fun _ =>
    oalt (quoteBranch dquoteC (fun cap s1 => k (some cap) s1) s) (fun _ =>
      oalt (quoteBranch bquoteC (fun cap s1 => k (some cap) s1) s) (fun _ =>
        oalt (rplus isPlainChar (fun cap s1 => k (some cap) s1) [] s) (fun _ =>
          k none s))))

/-- Greedy `dot*` of the trailing comment: any character that is not a
line terminator. -/
def dotStar (k : List Char → Option α) : List Char → Option α
  | [] => k []
  | c :: t =>
    if isLineTerm c then k (c :: t)
    else oalt (dotStar k t) (fun _ => k (c :: t))

/-- Optional trailing comment `(hash dot*)?`. -/
def commentOpt (k : List Char → Option α) (s : List Char) : Option α :=
  oalt
    (match s with
     | c :: t => if c = hashC then dotStar k t else none
     | [] => none)
    (fun _ => k s)

/-- The multiline dollar anchor: succeeds at the end of input or before a
line terminator. -/
def eolCheck (k : List Char → Option α) (s : List Char) : Option α :=
  match s with
  | [] => k []
  | c :: t => if isLineTerm c then k (c :: t) else none

/-- Attempt the whole LINE pattern at one position (which the caller has
checked to be a line start). On success returns the captured key, the
optional raw value capture, and the unconsumed remainder. -/
def matchAt (s : List Char) : Option (List Char × Option (List Char) × List Char) :=
  wsStar
    (exportOpt
      (rplus isKeyChar
        (fun key =>
          sepAlt
            (valueOpt
              (fun v =>
                wsStar (commentOpt (eolCheck (fun s8 => some (key, v, s8)))))))
        []))
    s

/-! ## Value post-processing

For each match the source takes the raw capture (or the empty string when
the value group did not participate), trims it, remembers its first
character, strips one outer pair of matching quotes via a global multiline
replace of `caret (quote) anything* same-quote dollar`, and, when the
remembered first character was a double quote, expands the two-character
escapes backslash-n and backslash-r. -/

/-- JavaScript string trim: drop whitespace and line terminators from both
ends (the same character set as the regex whitespace class). -/
def trimList (s : List Char) : List Char :=
  ((s.dropWhile isJsWs).reverse.dropWhile isJsWs).reverse

/-- Find the rightmost closing quote for the quote-stripping regex: split
`s` as `mid ++ q :: rest` where `rest` is empty or starts with a line
terminator (the multiline dollar), preferring the longest `mid`. -/
def findClose (q : Char) : List Char → Option (List Char × List Char)
  | [] => none
  | c :: t =>
    match findClose q t with
    | some (mid, rest) => some (c :: mid, rest)
    | none =>
      if c = q && (match t with | [] => true | d :: _ => isLineTerm d) then some ([], t)
      else none

/-- One pass of the global multiline quote-stripping replace. `lineStart`
records whether the current position follows a line terminator (or is the
start); matches are replaced by their interior and scanning resumes after
the match. Fuel bounds the recursion; `s.length` always suffices. -/
def stripQuotesAux (fuel : Nat) (lineStart : Bool) (s : List Char) : List Char :=
  match fuel with
  | 0 => s
  | fuel + 1 =>
    match s with
    | [] => []
    | c :: t =>
      if lineStart && isQuoteC c then
        match findClose c t with
        | some (mid, rest) => mid ++ stripQuotesAux fuel false rest
        | none => c :: stripQuotesAux fuel (isLineTerm c) t
      else c :: stripQuotesAux fuel (isLineTerm c) t

/-- The quote-stripping replace applied to a whole value. -/
def stripQuotes (s : List Char) : List Char :=
  stripQuotesAux s.length true s

/-- One global replace of the two-character sequence backslash-`target` by
`rep`, scanning left to right without overlap. -/
def replaceEsc (target rep : Char) : List Char → List Char
  | [] => []
  | [c] => [c]
  | b :: c :: t =>
    if b = bslashC && c = target then rep :: replaceEsc target rep t
    else b :: replaceEsc target rep (c :: t)

/-- Expand backslash-n then backslash-r, in the order of the source. -/
def expandEscapes (s : List Char) : List Char :=
  replaceEsc 'r' '\r' (replaceEsc 'n' '\n' s)

/-- The full per-value post-processing of the parse loop. -/
def postProcessL (raw : List Char) : List Char :=
  let v1 := trimList raw
  let maybeQuote := v1.head?
  let v2 := stripQuotes v1
  if maybeQuote = some dquoteC then expandEscapes v2 else v2

/-! ## The global scan

The parse loop repeatedly calls exec on the LINE regex: the next match is
sought from the current position onward, and the multiline caret restricts
candidate starts to position zero and positions directly after a line
terminator. Each match appends one key/value pair to the match sequence;
the object is then built by assigning each pair in order. -/

/-- Whether the position after a match is a line start: the last consumed
character is a line terminator (a match consumes at least one character;
the fallback covers the impossible empty consumption). -/
def scanStep (s rest : List Char) (lineStart : Bool) : Bool :=
  match (s.take (s.length - rest.length)).getLast? with
  | some d => isLineTerm d
  | none => lineStart

/-- Scan for successive matches. `lineStart` says whether the current
position is a valid caret position. Each step either consumes a whole
match (at least one character) or advances one character, so fuel
`s.length + 1` always suffices. -/
def scanAux (fuel : Nat) (lineStart : Bool) (s : List Char) (acc : List (String × String)) :
    List (String × String) :=
  match fuel with
  | 0 => acc
  | fuel + 1 =>
    match s with
    | [] => acc
    | c :: t =>
      if lineStart then
        match matchAt (c :: t) with
        | some (key, v, rest) =>
          scanAux fuel (scanStep (c :: t) rest lineStart) rest
            (acc ++ [(String.mk key, String.mk (postProcessL (v.getD [])))])
        | none => scanAux fuel (isLineTerm c) t acc
      else scanAux fuel (isLineTerm c) t acc

/-- The ordered sequence of key/value pairs produced by one parse pass
(duplicates retained, in match order). -/
def envTrace (src : String) : List (String × String) :=
  let l := normalizeNewlines src.data
  scanAux (l.length + 1) true l []

/-- The built-in parse function: normalize line endings, scan for matches,
assign each matched pair to the result object in order. -/
def parse (src : String) : Obj :=
  (envTrace src).foldl (fun o p => setObj o p.1 p.2) []

/-! ## The loadEnv pipeline

The pipeline is embedded over an explicit world: the process environment
object, the working directory, a byte-level file reading capability whose
failures are collapsed to absence, a text decoding capability (external to
the repository, as is JSON serialization of validation issues), and the
issue serializer. The caller supplies the schema as its non-throwing try
operation. The result records the outcome, the final process environment,
and the ordered list of file paths read. -/

/-- A structured validation issue as carried by the schema capability. -/
structure Issue where
  code : String
  path : List String
  message : String
  param : Option String
deriving DecidableEq

/-- Outcome of the schema try operation. -/
inductive SchemaResult where
  | ok (value : Obj)
  | err (issues : List Issue)

/-- File content as returned by a synchronous read: a raw byte buffer when
no encoding was given, a decoded string otherwise. -/
inductive FileContent where
  | buf (bytes : List Nat)
  | str (s : String)
deriving DecidableEq

/-- The external world of one loadEnv call. -/
structure World where
  procEnv : Obj
  cwd : String
  readFileBytes : String → Option (List Nat)
  decode : String → List Nat → String
  stringifyIssue : Issue → String

/-- The options record of loadEnv; every field is optional. -/
structure LoadOptions where
  corePath : Option String
  defaultsPathsMap : Option Obj
  processEnvKey : Option String
  parseFn : Option (FileContent → Obj)
  encoding : Option String

/-- The three error kinds thrown by loadEnv, each carrying its message. -/
inductive LoadError where
  | missingEnvironmentName (msg : String)
  | noSourceFile (msg : String)
  | validationFailed (msg : String)
deriving DecidableEq

/-- The message thrown when the environment discriminator is missing. -/
def missingEnvMsg : String :=
  "For loading the actual .env defaults file, there is necessary environment in process.env"

/-- The message thrown when both source files are missing. -/
def noSourceMsg : String :=
  "There are necessary either the core (.env) file or defaults (.env.[environment].defaults) file"

/-- JavaScript falsy test on an optional string: undefined or empty. -/
def optFalsy (o : Option String) : Bool :=
  match o with
  | some s => s = ""
  | none => true

/-- JavaScript `a || d` on an optional string against a default. -/
def strFalsyOr (o : Option String) (d : String) : String :=
  match o with
  | some s => if s = "" then d else s
  | none => d

/-- Path resolution against the working directory. -/
def resolvePath (cwd p : String) : String := cwd ++ "/" ++ p

/-- The scoped file read: absence and every read error yield undefined;
otherwise the bytes are returned raw (no encoding) or decoded. -/
def loadFileM (w : World) (filePath : String) (encoding : Option String) : Option FileContent :=
  match w.readFileBytes filePath with
  | none => none
  | some bytes =>
    match encoding with
    | none => some (FileContent.buf bytes)
    | some e => some (FileContent.str (w.decode e bytes))

/-- JavaScript falsy test on an optional file content: undefined buffers
never, strings exactly when empty. -/
def fcFalsy (o : Option FileContent) : Bool :=
  match o with
  | none => true
  | some (FileContent.buf _) => false
  | some (FileContent.str s) => s = ""

/-- JavaScript `buffer || empty-string` as applied before parsing. -/
def fcOrEmpty (o : Option FileContent) : FileContent :=
  match o with
  | none => FileContent.str ""
  | some fc => fc

/-- Buffer or string to string, as in the toString call of the built-in
parse function (buffers decode as UTF-8). -/
def fcToString (w : World) : FileContent → String
  | FileContent.str s => s
  | FileContent.buf b => w.decode "utf8" b

/-- The built-in parse applied to a file content value. -/
def builtinParse (w : World) (fc : FileContent) : Obj :=
  parse (fcToString w fc)

/-- The effective process environment key: the option or NODE_ENV. -/
def effProcessEnvKey (opt : LoadOptions) : String :=
  strFalsyOr opt.processEnvKey "NODE_ENV"

/-- The environment discriminator read from the process environment. -/
def currentEnvOf (opt : LoadOptions) (w : World) : Option String :=
  getObj w.procEnv (effProcessEnvKey opt)

/-- The resolved core file path. -/
def corePathOf (opt : LoadOptions) (w : World) : String :=
  strFalsyOr opt.corePath (resolvePath w.cwd ".env")

/-- The resolved defaults file path for an environment name. -/
def defaultsPathOf (opt : LoadOptions) (w : World) (env : String) : String :=
  strFalsyOr
    (match opt.defaultsPathsMap with
     | some m => getObj m env
     | none => none)
    (resolvePath w.cwd (".env." ++ env ++ ".defaults"))

/-- The raw core source. -/
def coreBufOf (opt : LoadOptions) (w : World) : Option FileContent :=
  loadFileM w (corePathOf opt w) opt.encoding

/-- The raw defaults source. -/
def defaultsBufOf (opt : LoadOptions) (w : World) (env : String) : Option FileContent :=
  loadFileM w (defaultsPathOf opt w env) opt.encoding

/-- The effective parse function: the override or the built-in parse. -/
def actualParseOf (opt : LoadOptions) (w : World) : FileContent → Obj :=
  opt.parseFn.getD (builtinParse w)

/-- The merged mapping: parse the defaults source, then assign every key
of the parsed core source over it. -/
def mergedOf (opt : LoadOptions) (w : World) (env : String) : Obj :=
  objAssign
    (actualParseOf opt w (fcOrEmpty (defaultsBufOf opt w env)))
    (actualParseOf opt w (fcOrEmpty (coreBufOf opt w)))

/-- Serialize each issue, join with newlines as the JavaScript array join
does, prefix the validation banner. -/
def joinNl : List String → String
  | [] => ""
  | x :: xs => xs.foldl (fun acc y => acc ++ "\n" ++ y) x

/-- The validation error message built from the full issue list. -/
def validationMsg (w : World) (issues : List Issue) : String :=
  "Validation errors: " ++ joinNl (issues.map w.stringifyIssue)

/-- The observable outcome of one loadEnv call. -/
structure LoadResult where
  res : Except LoadError Unit
  env : Obj
  reads : List String

/-- The loadEnv pipeline: read the discriminator (fail when falsy), resolve
both paths, read both files, fail when both contents are falsy, parse and
merge, validate, and on success assign the validated mapping onto the
process environment. -/
def loadEnv (schemaTry : Obj → SchemaResult) (opt : LoadOptions) (w : World) : LoadResult :=
  let cur := currentEnvOf opt w
  if optFalsy cur then
    ⟨Except.error (LoadError.missingEnvironmentName missingEnvMsg), w.procEnv, []⟩
  else
    let env := cur.getD ""
    let corePath := corePathOf opt w
    let defaultsPath := defaultsPathOf opt w env
    let coreBuf := loadFileM w corePath opt.encoding
    let defBuf := loadFileM w defaultsPath opt.encoding
    if fcFalsy coreBuf && fcFalsy defBuf then
      ⟨Except.error (LoadError.noSourceFile noSourceMsg), w.procEnv, [corePath, defaultsPath]⟩
    else
      match schemaTry (mergedOf opt w env) with
      | SchemaResult.err issues =>
        ⟨Except.error (LoadError.validationFailed (validationMsg w issues)), w.procEnv,
          [corePath, defaultsPath]⟩
      | SchemaResult.ok value =>
        ⟨Except.ok (), objAssign w.procEnv value, [corePath, defaultsPath]⟩

/-! ## Object lemmas -/

/-- First-defined choice on optional values, used to state precedence. -/
def ofirst (a b : Option α) : Option α :=
  match a with
  | some x => some x
  | none => b

/-- The keys of an object, in order. -/
def objKeys (o : Obj) : List String := o.map Prod.fst

@[simp] theorem objKeys_nil : objKeys [] = [] := rfl

@[simp] theorem objKeys_cons (p : String × String) (t : Obj) :
    objKeys (p :: t) = p.1 :: objKeys t := rfl

theorem getObj_setObj (o : Obj) (k v : String) (k' : String) :
    getObj (setObj o k v) k' = if k = k' then some v else getObj o k' := by
  induction o with
  | nil => simp [setObj, getObj]
  | cons p t ih =>
    by_cases hpk : p.1 = k
    · subst hpk
      simp only [setObj, if_pos rfl, getObj]
      by_cases hkk : p.1 = k'
      · simp [hkk]
      · simp [hkk, getObj]
    · simp only [setObj, if_neg hpk, getObj]
      by_cases hpk' : p.1 = k'
      · have : ¬ k = k' := fun h => hpk (h ▸ hpk')
        simp [hpk', this]
      · simp [hpk', ih]

theorem getObj_eq_none_of_not_mem (o : Obj) (k : String) (h : k ∉ objKeys o) :
    getObj o k = none := by
  induction o with
  | nil => simp [getObj]
  | cons p t ih =>
    simp only [objKeys, List.map_cons, List.mem_cons, not_or] at h
    have hne : p.1 ≠ k := fun hh => h.1 hh.symm
    simp only [getObj, if_neg hne]
    exact ih (by simpa [objKeys] using h.2)

theorem objKeys_setObj (o : Obj) (k v : String) :
    objKeys (setObj o k v) = if k ∈ objKeys o then objKeys o else objKeys o ++ [k] := by
  induction o with
  | nil => simp [setObj, objKeys]
  | cons p t ih =>
    by_cases hpk : p.1 = k
    · subst hpk
      simp [setObj, objKeys]
    · have hne : k ≠ p.1 := fun h => hpk h.symm
      simp only [setObj, if_neg hpk, objKeys_cons, ih]
      by_cases hmem : k ∈ objKeys t
      · simp [hmem, hne]
      · simp [hmem, hne]

theorem nodup_objKeys_setObj (o : Obj) (k v : String) (h : (objKeys o).Nodup) :
    (objKeys (setObj o k v)).Nodup := by
  rw [objKeys_setObj]
  by_cases hmem : k ∈ objKeys o
  · simpa [hmem] using h
  · simp only [if_neg hmem]
    exact List.nodup_append.mpr
      ⟨h, List.nodup_singleton k, by simp [List.disjoint_singleton, hmem]⟩

theorem nodup_objKeys_build (l : List (String × String)) (o : Obj) (h : (objKeys o).Nodup) :
    (objKeys (l.foldl (fun acc p => setObj acc p.1 p.2) o)).Nodup := by
  induction l generalizing o with
  | nil => simpa using h
  | cons p t ih =>
    simp only [List.foldl_cons]
    exact ih _ (nodup_objKeys_setObj _ _ _ h)

theorem nodup_objKeys_parse (src : String) : (objKeys (parse src)).Nodup := by
  unfold parse
  exact nodup_objKeys_build _ _ (by simp [objKeys])

theorem getObj_objAssign (d c : Obj) (k : String) (h : (objKeys c).Nodup) :
    getObj (objAssign d c) k = ofirst (getObj c k) (getObj d k) := by
  induction c generalizing d with
  | nil => simp [objAssign, getObj, ofirst]
  | cons p t ih =>
    simp only [objKeys, List.map_cons, List.nodup_cons] at h
    have hnm : p.1 ∉ objKeys t := by simpa [objKeys] using h.1
    have hnd : (objKeys t).Nodup := by simpa [objKeys] using h.2
    simp only [objAssign, List.foldl_cons]
    have ih2 := ih (setObj d p.1 p.2) hnd
    simp only [objAssign] at ih2
    rw [ih2]
    by_cases hk : p.1 = k
    · subst hk
      have ht : getObj t p.1 = none := getObj_eq_none_of_not_mem _ _ hnm
      simp [ht, ofirst, getObj_setObj, getObj]
    · have hs : getObj (setObj d p.1 p.2) k = getObj d k := by
        rw [getObj_setObj]
        simp [hk]
      simp only [hs, getObj, if_neg hk]

/-- Claim C1: merge precedence. For every pair of parsed sources, the
merged mapping binds every key present in the core source to the core
value (even when that value is the empty string), every key present only
in the defaults source to the defaults value, and no other key. -/
theorem merge_precedence (core defaults : String) (k : String) :
    getObj (objAssign (parse defaults) (parse core)) k
      = ofirst (getObj (parse core) k) (getObj (parse defaults) k) :=
  getObj_objAssign _ _ _ (nodup_objKeys_parse core)

/-! ## Last-match-wins for the built object -/

theorem getObj_build (l : List (String × String)) (o : Obj) (k : String) :
    getObj (l.foldl (fun acc p => setObj acc p.1 p.2) o) k
      = match (l.filter (fun p => p.1 = k)).getLast? with
        | some q => some q.2
        | none => getObj o k := by
  induction l generalizing o with
  | nil => simp
  | cons p t ih =>
    simp only [List.foldl_cons]
    rw [ih]
    by_cases hk : p.1 = k
    · rw [List.filter_cons, if_pos (by simp [hk])]
      cases hfl : t.filter (fun q => q.1 = k) with
      | nil =>
        simp only [List.getLast?_nil, List.getLast?_singleton]
        rw [getObj_setObj]
        simp [hk]
      | cons x xs =>
        rw [List.getLast?_cons_cons]
        cases hlast : (x :: xs).getLast? with
        | some q => rfl
        | none => simp [List.getLast?_eq_none_iff] at hlast
    · rw [List.filter_cons, if_neg (by simp [hk])]
      cases hlast : (t.filter (fun q => q.1 = k)).getLast? with
      | some q => rfl
      | none =>
        rw [getObj_setObj]
        simp [hk]

/-- Claim C9: duplicate keys, last match wins. When a key is matched more
than once in one parse pass, the parsed object binds it to the value of
the last match, and the keys of the parsed object have no duplicates. -/
theorem duplicate_keys_last_wins (src : String) (k : String)
    (h : 2 ≤ ((envTrace src).filter (fun p => p.1 = k)).length) :
    getObj (parse src) k
        = ((envTrace src).filter (fun p => p.1 = k)).getLast?.map Prod.snd
      ∧ (objKeys (parse src)).Nodup := by
  constructor
  · unfold parse
    rw [getObj_build]
    cases hlast : ((envTrace src).filter (fun p => p.1 = k)).getLast? with
    | some q => simp
    | none =>
      have : (envTrace src).filter (fun p => p.1 = k) = [] := by
        simpa [List.getLast?_eq_none_iff] using hlast
      rw [this] at h
      simp at h
  · exact nodup_objKeys_parse src

/-- Witness for C9 at the source text with two declarations of A. -/
theorem duplicate_keys_last_wins_witness :
    2 ≤ ((envTrace "A=1\nA=2").filter (fun p => p.1 = "A")).length
      ∧ (getObj (parse "A=1\nA=2") "A"
            = ((envTrace "A=1\nA=2").filter (fun p => p.1 = "A")).getLast?.map Prod.snd
          ∧ (objKeys (parse "A=1\nA=2")).Nodup) :=
  ⟨by decide, duplicate_keys_last_wins "A=1\nA=2" "A" (by decide)⟩

/-! ## String append helpers -/

theorem strAppend_assoc (a b c : String) : a ++ b ++ c = a ++ (b ++ c) := by
  apply String.ext
  simp [List.append_assoc]

theorem strEmpty_append (a : String) : "" ++ a = a := by
  apply String.ext
  simp

/-- Every element reaches the newline join as a contiguous segment. -/
theorem foldl_join_acc (l : List String) (a : String) :
    ∃ post, l.foldl (fun acc y => acc ++ "\n" ++ y) a = a ++ post := by
  induction l generalizing a with
  | nil => exact ⟨"", by simp⟩
  | cons y t ih =>
    obtain ⟨post, hp⟩ := ih (a ++ "\n" ++ y)
    refine ⟨"\n" ++ y ++ post, ?_⟩
    rw [List.foldl_cons, hp]
    rw [strAppend_assoc a "\n" y, strAppend_assoc a ("\n" ++ y) post,
      strAppend_assoc "\n" y post]

theorem foldl_join_mem (l : List String) (x : String) (hx : x ∈ l) (a : String) :
    ∃ pre post, l.foldl (fun acc y => acc ++ "\n" ++ y) a = pre ++ x ++ post := by
  induction l generalizing a with
  | nil => cases hx
  | cons y t ih =>
    rcases List.mem_cons.mp hx with h | h
    · subst h
      obtain ⟨post, hp⟩ := foldl_join_acc t (a ++ "\n" ++ x)
      exact ⟨a ++ "\n", post, by rw [List.foldl_cons, hp]⟩
    · exact ih h (a ++ "\n" ++ y)

theorem joinNl_mem (l : List String) (x : String) (hx : x ∈ l) :
    ∃ pre post, joinNl l = pre ++ x ++ post := by
  cases l with
  | nil => cases hx
  | cons y t =>
    rcases List.mem_cons.mp hx with h | h
    · subst h
      obtain ⟨post, hp⟩ := foldl_join_acc t x
      exact ⟨"", post, by rw [joinNl, hp, strEmpty_append]⟩
    · exact foldl_join_mem t x h y

theorem validationMsg_mem (w : World) (issues : List Issue) (i : Issue) (hi : i ∈ issues) :
    ∃ pre post, validationMsg w issues = pre ++ w.stringifyIssue i ++ post := by
  obtain ⟨pre, post, hp⟩ :=
    joinNl_mem (issues.map w.stringifyIssue) (w.stringifyIssue i) (List.mem_map_of_mem _ hi)
  refine ⟨"Validation errors: " ++ pre, post, ?_⟩
  rw [validationMsg, hp]
  apply String.ext
  simp [List.append_assoc]

/-! ## Pipeline theorems -/

/-- Claim C4: fail fast on a missing discriminator. When the process
environment value under the effective key is unset or empty, loadEnv
returns the missing-environment-name error, records no file read, and
leaves the process environment unchanged. -/
theorem missing_env_fail_fast (schemaTry : Obj → SchemaResult) (opt : LoadOptions) (w : World)
    (h : currentEnvOf opt w = none ∨ currentEnvOf opt w = some "") :
    loadEnv schemaTry opt w
      = ⟨Except.error (LoadError.missingEnvironmentName missingEnvMsg), w.procEnv, []⟩ := by
  have hf : optFalsy (currentEnvOf opt w) = true := by
    rcases h with h | h <;> simp [optFalsy, h]
  unfold loadEnv
  simp [hf]

/-- World for the C4 witness: empty process environment. -/
def wC4 : World := ⟨[], "", fun _ => none, fun _ _ => "", fun _ => ""⟩

/-- Options record with every field absent. -/
def optC4 : LoadOptions := ⟨none, none, none, none, none⟩

/-- Witness for C4: with no NODE_ENV binding the call fails with the
missing-environment-name error before any read. -/
theorem missing_env_fail_fast_witness :
    (currentEnvOf optC4 wC4 = none ∨ currentEnvOf optC4 wC4 = some "")
      ∧ loadEnv (fun _ => SchemaResult.ok []) optC4 wC4
          = ⟨Except.error (LoadError.missingEnvironmentName missingEnvMsg), wC4.procEnv, []⟩ :=
  ⟨Or.inl rfl, missing_env_fail_fast _ _ _ (Or.inl rfl)⟩

/-- Claim C2: validation-failure atomicity. When the schema try operation
rejects the merged mapping with an ordered issue list, loadEnv fails with
a validation error whose message contains the serialization of every
issue of the list, and the process environment is unchanged. -/
theorem validation_failure_atomic (schemaTry : Obj → SchemaResult) (opt : LoadOptions)
    (w : World) (issues : List Issue)
    (henv : optFalsy (currentEnvOf opt w) = false)
    (hsrc : ¬(fcFalsy (coreBufOf opt w) = true
        ∧ fcFalsy (defaultsBufOf opt w ((currentEnvOf opt w).getD "")) = true))
    (hval : schemaTry (mergedOf opt w ((currentEnvOf opt w).getD ""))
        = SchemaResult.err issues) :
    (loadEnv schemaTry opt w).env = w.procEnv
    ∧ (loadEnv schemaTry opt w).res
        = Except.error (LoadError.validationFailed (validationMsg w issues))
    ∧ ∀ i ∈ issues, ∃ pre post,
        validationMsg w issues = pre ++ w.stringifyIssue i ++ post := by
  have hb : (fcFalsy (coreBufOf opt w)
      && fcFalsy (defaultsBufOf opt w ((currentEnvOf opt w).getD ""))) = false := by
    cases hc : fcFalsy (coreBufOf opt w) <;>
      cases hd : fcFalsy (defaultsBufOf opt w ((currentEnvOf opt w).getD "")) <;>
        simp_all
  refine ⟨?_, ?_, fun i hi => validationMsg_mem w issues i hi⟩ <;>
    · unfold loadEnv
      simp only [henv, Bool.false_eq_true, if_false]
      simp only [coreBufOf, defaultsBufOf] at hb
      simp only [hb, Bool.false_eq_true, if_false, hval]

/-- World for the C2 witness: a core file whose parse fails validation. -/
def wC2 : World :=
  ⟨[("NODE_ENV", "test"), ("KEEP", "old")], "",
    (fun p => if p = "/.env" then some (("KEY=x".data).map Char.toNat) else none),
    (fun _ bs => String.mk (bs.map Char.ofNat)),
    (fun i => i.message)⟩

/-- Options record for the C2 witness. -/
def optC2 : LoadOptions := ⟨none, none, none, none, none⟩

/-- First issue reported by the C2 witness schema. -/
def issueC2a : Issue := ⟨"type", ["KEY"], "must be a string", none⟩

/-- Second issue reported by the C2 witness schema. -/
def issueC2b : Issue := ⟨"type", ["OTHER"], "missing value", none⟩

/-- The rejecting schema of the C2 witness. -/
def schemaErrC2 : Obj → SchemaResult := fun _ => SchemaResult.err [issueC2a, issueC2b]

/-- Witness for C2: a concrete rejected load leaves the environment alone
and reports both issues. -/
theorem validation_failure_atomic_witness :
    optFalsy (currentEnvOf optC2 wC2) = false
    ∧ ¬(fcFalsy (coreBufOf optC2 wC2) = true
        ∧ fcFalsy (defaultsBufOf optC2 wC2 ((currentEnvOf optC2 wC2).getD "")) = true)
    ∧ schemaErrC2 (mergedOf optC2 wC2 ((currentEnvOf optC2 wC2).getD ""))
        = SchemaResult.err [issueC2a, issueC2b]
    ∧ (loadEnv schemaErrC2 optC2 wC2).env = wC2.procEnv
    ∧ (loadEnv schemaErrC2 optC2 wC2).res
        = Except.error (LoadError.validationFailed (validationMsg wC2 [issueC2a, issueC2b]))
    ∧ ∃ pre post,
        validationMsg wC2 [issueC2a, issueC2b] = pre ++ wC2.stringifyIssue issueC2b ++ post := by
  have h1 : optFalsy (currentEnvOf optC2 wC2) = false := by decide
  have h2 : ¬(fcFalsy (coreBufOf optC2 wC2) = true
      ∧ fcFalsy (defaultsBufOf optC2 wC2 ((currentEnvOf optC2 wC2).getD "")) = true) := by decide
  have h3 : schemaErrC2 (mergedOf optC2 wC2 ((currentEnvOf optC2 wC2).getD ""))
      = SchemaResult.err [issueC2a, issueC2b] := rfl
  have hmain := validation_failure_atomic schemaErrC2 optC2 wC2 [issueC2a, issueC2b] h1 h2 h3
  exact ⟨h1, h2, h3, hmain.1, hmain.2.1,
    hmain.2.2 issueC2b (by simp)⟩

/-- Claim C3: success frame effect. When validation succeeds, the final
process environment reads every key of the validated mapping from that
mapping and every other key from the prior environment. -/
theorem success_frame (schemaTry : Obj → SchemaResult) (opt : LoadOptions) (w : World)
    (value : Obj)
    (henv : optFalsy (currentEnvOf opt w) = false)
    (hsrc : ¬(fcFalsy (coreBufOf opt w) = true
        ∧ fcFalsy (defaultsBufOf opt w ((currentEnvOf opt w).getD "")) = true))
    (hok : schemaTry (mergedOf opt w ((currentEnvOf opt w).getD ""))
        = SchemaResult.ok value)
    (hnd : (objKeys value).Nodup) :
    (loadEnv schemaTry opt w).res = Except.ok ()
    ∧ ∀ k, getObj (loadEnv schemaTry opt w).env k
        = ofirst (getObj value k) (getObj w.procEnv k) := by
  have hb : (fcFalsy (coreBufOf opt w)
      && fcFalsy (defaultsBufOf opt w ((currentEnvOf opt w).getD ""))) = false := by
    cases hc : fcFalsy (coreBufOf opt w) <;>
      cases hd : fcFalsy (defaultsBufOf opt w ((currentEnvOf opt w).getD "")) <;>
        simp_all
  have henvres : (loadEnv schemaTry opt w).env = objAssign w.procEnv value := by
    unfold loadEnv
    simp only [henv, Bool.false_eq_true, if_false]
    simp only [coreBufOf, defaultsBufOf] at hb
    simp only [hb, Bool.false_eq_true, if_false, hok]
  refine ⟨?_, fun k => ?_⟩
  · unfold loadEnv
    simp only [henv, Bool.false_eq_true, if_false]
    simp only [coreBufOf, defaultsBufOf] at hb
    simp only [hb, Bool.false_eq_true, if_false, hok]
  · rw [henvres]
    exact getObj_objAssign _ _ _ hnd

/-- World for the C3 witness: both files present, stale prior bindings. -/
def wC3 : World :=
  ⟨[("NODE_ENV", "test"), ("KEEP", "old"), ("DATABASE_URL", "stale")], "",
    (fun p =>
      if p = "/.env" then some (("DATABASE_URL=core.url".data).map Char.toNat)
      else if p = "/.env.test.defaults" then
        some (("DATABASE_URL=def.url\nJWT_SECRET=def.secret".data).map Char.toNat)
      else none),
    (fun _ bs => String.mk (bs.map Char.ofNat)),
    (fun i => i.message)⟩

/-- Options record for the C3 witness. -/
def optC3 : LoadOptions := ⟨none, none, none, none, none⟩

/-- The identity schema of the C3 witness. -/
def schemaOkC3 : Obj → SchemaResult := fun o => SchemaResult.ok o

/-- Witness for C3: a concrete successful load overlays exactly the
validated keys. -/
theorem success_frame_witness :
    optFalsy (currentEnvOf optC3 wC3) = false
    ∧ ¬(fcFalsy (coreBufOf optC3 wC3) = true
        ∧ fcFalsy (defaultsBufOf optC3 wC3 ((currentEnvOf optC3 wC3).getD "")) = true)
    ∧ schemaOkC3 (mergedOf optC3 wC3 ((currentEnvOf optC3 wC3).getD ""))
        = SchemaResult.ok (mergedOf optC3 wC3 ((currentEnvOf optC3 wC3).getD ""))
    ∧ (objKeys (mergedOf optC3 wC3 ((currentEnvOf optC3 wC3).getD ""))).Nodup
    ∧ (loadEnv schemaOkC3 optC3 wC3).res = Except.ok ()
    ∧ getObj (loadEnv schemaOkC3 optC3 wC3).env "DATABASE_URL"
        = ofirst (getObj (mergedOf optC3 wC3 ((currentEnvOf optC3 wC3).getD "")) "DATABASE_URL")
            (getObj wC3.procEnv "DATABASE_URL")
    ∧ getObj (loadEnv schemaOkC3 optC3 wC3).env "KEEP"
        = ofirst (getObj (mergedOf optC3 wC3 ((currentEnvOf optC3 wC3).getD "")) "KEEP")
            (getObj wC3.procEnv "KEEP") := by
  have h1 : optFalsy (currentEnvOf optC3 wC3) = false := by decide
  have h2 : ¬(fcFalsy (coreBufOf optC3 wC3) = true
      ∧ fcFalsy (defaultsBufOf optC3 wC3 ((currentEnvOf optC3 wC3).getD "")) = true) := by decide
  have h3 : schemaOkC3 (mergedOf optC3 wC3 ((currentEnvOf optC3 wC3).getD ""))
      = SchemaResult.ok (mergedOf optC3 wC3 ((currentEnvOf optC3 wC3).getD "")) := rfl
  have h4 : (objKeys (mergedOf optC3 wC3 ((currentEnvOf optC3 wC3).getD ""))).Nodup := by decide
  have hmain := success_frame schemaOkC3 optC3 wC3 _ h1 h2 h3 h4
  exact ⟨h1, h2, h3, h4, hmain.1, hmain.2 "DATABASE_URL", hmain.2 "KEEP"⟩

/-- Claim C5 (amended): the no-source-file error occurs exactly when both
raw sources are falsy, and a raw source is falsy exactly when its file is
absent or unreadable, or when an encoding was supplied and the decoded
content is the empty string. -/
theorem no_source_error_iff (schemaTry : Obj → SchemaResult) (opt : LoadOptions) (w : World)
    (henv : optFalsy (currentEnvOf opt w) = false) :
    ((loadEnv schemaTry opt w).res = Except.error (LoadError.noSourceFile noSourceMsg)
      ↔ (fcFalsy (coreBufOf opt w) = true
          ∧ fcFalsy (defaultsBufOf opt w ((currentEnvOf opt w).getD "")) = true))
    ∧ ∀ p enc, (fcFalsy (loadFileM w p enc) = true
        ↔ (w.readFileBytes p = none
            ∨ ∃ e b, enc = some e ∧ w.readFileBytes p = some b ∧ w.decode e b = "")) := by
  constructor
  · constructor
    · intro hres
      by_contra hc
      have hb : (fcFalsy (coreBufOf opt w)
          && fcFalsy (defaultsBufOf opt w ((currentEnvOf opt w).getD ""))) = false := by
        cases hx : fcFalsy (coreBufOf opt w) <;>
          cases hy : fcFalsy (defaultsBufOf opt w ((currentEnvOf opt w).getD "")) <;>
            simp_all
      unfold loadEnv at hres
      simp only [henv, Bool.false_eq_true, if_false] at hres
      simp only [coreBufOf, defaultsBufOf] at hb
      simp only [hb, Bool.false_eq_true, if_false] at hres
      cases hs : schemaTry (mergedOf opt w ((currentEnvOf opt w).getD "")) with
      | err issues => rw [hs] at hres; simp at hres
      | ok value => rw [hs] at hres; simp at hres
    · intro hc
      have hb : (fcFalsy (coreBufOf opt w)
          && fcFalsy (defaultsBufOf opt w ((currentEnvOf opt w).getD ""))) = true := by
        simp [hc.1, hc.2]
      unfold loadEnv
      simp only [henv, Bool.false_eq_true, if_false]
      simp only [coreBufOf, defaultsBufOf] at hb
      simp only [hb, if_true]
  · intro p enc
    unfold loadFileM fcFalsy
    cases hr : w.readFileBytes p with
    | none => simp
    | some bytes =>
      cases enc with
      | none => simp
      | some e =>
        constructor
        · intro hdec
          exact Or.inr ⟨e, bytes, rfl, rfl, by simpa using hdec⟩
        · rintro (h | ⟨e2, b2, he2, hb2, hdec⟩)
          · cases h
          · cases he2
            cases hb2
            simpa using hdec

/-- World for the C5 counterexample: the core file exists with empty
content, the defaults file is absent, and an encoding is supplied. -/
def wC5 : World :=
  ⟨[("NODE_ENV", "test")], "",
    (fun p => if p = "/.env" then some [] else none),
    (fun _ bs => String.mk (bs.map Char.ofNat)),
    (fun i => i.message)⟩

/-- Options record for the C5 counterexample: encoding utf8. -/
def optC5 : LoadOptions := ⟨none, none, none, none, some "utf8"⟩

/-- Counterexample for C5 as stated: the resolved core file exists (its
read succeeds, with empty content), yet the call fails with the
no-source-file error. -/
theorem absent_vs_empty_counterexample :
    wC5.readFileBytes (corePathOf optC5 wC5) = some []
      ∧ (loadEnv (fun _ => SchemaResult.ok []) optC5 wC5).res
          = Except.error (LoadError.noSourceFile noSourceMsg) := by
  constructor
  · rfl
  · rfl

/-- Witness for the amended C5 at the counterexample world: both raw
sources are falsy there, so the error is the biconditional consequence. -/
theorem no_source_error_iff_witness :
    optFalsy (currentEnvOf optC5 wC5) = false
    ∧ ((loadEnv (fun _ => SchemaResult.ok []) optC5 wC5).res
          = Except.error (LoadError.noSourceFile noSourceMsg)
        ↔ (fcFalsy (coreBufOf optC5 wC5) = true
            ∧ fcFalsy (defaultsBufOf optC5 wC5 ((currentEnvOf optC5 wC5).getD "")) = true)) := by
  have h1 : optFalsy (currentEnvOf optC5 wC5) = false := by decide
  exact ⟨h1, (no_source_error_iff (fun _ => SchemaResult.ok []) optC5 wC5 h1).1⟩

/-! ## Post-processing lemmas -/

theorem stripQuotesAux_nil (fuel : Nat) (ls : Bool) : stripQuotesAux fuel ls [] = [] := by
  cases fuel <;> rfl

theorem findClose_append (q : Char) (w : List Char) : findClose q (w ++ [q]) = some (w, []) := by
  induction w with
  | nil => simp [findClose]
  | cons c t ih => simp [findClose, ih]

theorem stripQuotes_wrap (q : Char) (hq : isQuoteC q = true) (w : List Char) :
    stripQuotes (q :: (w ++ [q])) = w := by
  unfold stripQuotes
  rw [show (q :: (w ++ [q])).length = w.length + 1 + 1 by simp]
  simp only [stripQuotesAux, hq, Bool.and_self, if_true, findClose_append]
  simp [stripQuotesAux_nil]

theorem trimList_wrap (q : Char) (hq : isJsWs q = false) (w : List Char) :
    trimList (q :: (w ++ [q])) = q :: (w ++ [q]) := by
  unfold trimList
  rw [List.dropWhile_cons_of_neg (by simp [hq])]
  rw [show (q :: (w ++ [q])).reverse = q :: (w.reverse ++ [q]) by simp]
  rw [List.dropWhile_cons_of_neg (by simp [hq])]
  simp

theorem postProcessL_wrap (q : Char) (hq : isQuoteC q = true) (hqws : isJsWs q = false)
    (w : List Char) :
    postProcessL (q :: (w ++ [q])) = if q = dquoteC then expandEscapes w else w := by
  have h1 : trimList (q :: (w ++ [q])) = q :: (w ++ [q]) := trimList_wrap q hqws w
  have h2 : stripQuotes (q :: (w ++ [q])) = w := stripQuotes_wrap q hq w
  unfold postProcessL
  simp only [h1, h2, List.head?_cons]
  by_cases h : q = dquoteC <;> simp [h]

theorem postProcess_squote (w : List Char) :
    postProcessL (squoteC :: (w ++ [squoteC])) = w := by
  rw [postProcessL_wrap squoteC (by decide) (by decide) w]
  simp [show ¬squoteC = dquoteC by decide]

theorem postProcess_bquote (w : List Char) :
    postProcessL (bquoteC :: (w ++ [bquoteC])) = w := by
  rw [postProcessL_wrap bquoteC (by decide) (by decide) w]
  simp [show ¬bquoteC = dquoteC by decide]

theorem postProcess_dquote (w : List Char) :
    postProcessL (dquoteC :: (w ++ [dquoteC])) = expandEscapes w := by
  rw [postProcessL_wrap dquoteC (by decide) (by decide) w]
  simp

/-! ## The escape token language

A double-quoted interior, decomposed into the two-character escapes
backslash-n and backslash-r and the remaining raw characters. The
well-formedness condition rules out a raw backslash directly before a raw
n or r, which the left-to-right scans of the two replaces would otherwise
pair up across the decomposition. -/

inductive EscTok where
  | escn : EscTok
  | escr : EscTok
  | raw : Char → EscTok
deriving DecidableEq

/-- The characters of a decomposed interior. -/
def escFlatten : List EscTok → List Char
  | [] => []
  | EscTok.escn :: ts => bslashC :: 'n' :: escFlatten ts
  | EscTok.escr :: ts => bslashC :: 'r' :: escFlatten ts
  | EscTok.raw c :: ts => c :: escFlatten ts

/-- The interior after the backslash-n replace only. -/
def escMid : List EscTok → List Char
  | [] => []
  | EscTok.escn :: ts => '\n' :: escMid ts
  | EscTok.escr :: ts => bslashC :: 'r' :: escMid ts
  | EscTok.raw c :: ts => c :: escMid ts

/-- The interior with every escape expanded to its literal character. -/
def escSem : List EscTok → List Char
  | [] => []
  | EscTok.escn :: ts => '\n' :: escSem ts
  | EscTok.escr :: ts => '\r' :: escSem ts
  | EscTok.raw c :: ts => c :: escSem ts

/-- No raw backslash directly before a raw n or raw r. -/
def escWF : List EscTok → Bool
  | EscTok.raw b :: EscTok.raw c :: ts =>
    (!(b = bslashC && (c = 'n' || c = 'r'))) && escWF (EscTok.raw c :: ts)
  | _ :: ts => escWF ts
  | [] => true

theorem escWF_tail (x : EscTok) (ts : List EscTok) (h : escWF (x :: ts) = true) :
    escWF ts = true := by
  cases x with
  | escn => exact h
  | escr => exact h
  | raw b =>
    cases ts with
    | nil => rfl
    | cons y ts2 =>
      cases y with
      | escn => exact h
      | escr => exact h
      | raw c =>
        simp only [escWF, Bool.and_eq_true] at h
        exact h.2

theorem replaceEsc_cons_other (tgt rep c : Char) (l : List Char) (h : ¬c = bslashC) :
    replaceEsc tgt rep (c :: l) = c :: replaceEsc tgt rep l := by
  cases l with
  | nil => rfl
  | cons d t => simp [replaceEsc, h]

theorem replaceEsc_cons_bslash (tgt rep : Char) (l : List Char)
    (h : ∀ d t, l = d :: t → ¬d = tgt) :
    replaceEsc tgt rep (bslashC :: l) = bslashC :: replaceEsc tgt rep l := by
  cases l with
  | nil => rfl
  | cons d t => simp [replaceEsc, h d t rfl]

theorem replaceEsc_n_escFlatten (ts : List EscTok) (h : escWF ts = true) :
    replaceEsc 'n' '\n' (escFlatten ts) = escMid ts := by
  induction ts with
  | nil => rfl
  | cons x ts ih =>
    have htl := escWF_tail x ts h
    cases x with
    | escn =>
      show replaceEsc 'n' '\n' (bslashC :: 'n' :: escFlatten ts) = '\n' :: escMid ts
      simp only [replaceEsc, decide_True, Bool.and_self, if_true]
      simpa using ih htl
    | escr =>
      show replaceEsc 'n' '\n' (bslashC :: 'r' :: escFlatten ts) = bslashC :: 'r' :: escMid ts
      rw [replaceEsc_cons_bslash _ _ _ (by intro d t hdt; cases hdt; decide)]
      rw [replaceEsc_cons_other _ _ _ _ (by decide)]
      rw [ih htl]
    | raw c =>
      show replaceEsc 'n' '\n' (c :: escFlatten ts) = c :: escMid ts
      by_cases hc : c = bslashC
      · subst hc
        rw [replaceEsc_cons_bslash _ _ _ ?_]
        · rw [ih htl]
        · intro d t hdt
          cases ts with
          | nil => simp [escFlatten] at hdt
          | cons y ts2 =>
            cases y with
            | escn =>
              simp only [escFlatten, List.cons.injEq] at hdt
              rw [← hdt.1]
              decide
            | escr =>
              simp only [escFlatten, List.cons.injEq] at hdt
              rw [← hdt.1]
              decide
            | raw e =>
              simp only [escFlatten, List.cons.injEq] at hdt
              simp only [escWF, Bool.and_eq_true] at h
              have h1 := h.1
              rw [← hdt.1]
              intro he
              rw [he] at h1
              simp at h1
      · rw [replaceEsc_cons_other _ _ _ _ hc, ih htl]

theorem replaceEsc_r_escMid (ts : List EscTok) (h : escWF ts = true) :
    replaceEsc 'r' '\r' (escMid ts) = escSem ts := by
  induction ts with
  | nil => rfl
  | cons x ts ih =>
    have htl := escWF_tail x ts h
    cases x with
    | escn =>
      show replaceEsc 'r' '\r' ('\n' :: escMid ts) = '\n' :: escSem ts
      rw [replaceEsc_cons_other _ _ _ _ (by decide), ih htl]
    | escr =>
      show replaceEsc 'r' '\r' (bslashC :: 'r' :: escMid ts) = '\r' :: escSem ts
      simp only [replaceEsc, decide_True, Bool.and_self, if_true]
      simpa using ih htl
    | raw c =>
      show replaceEsc 'r' '\r' (c :: escMid ts) = c :: escSem ts
      by_cases hc : c = bslashC
      · subst hc
        rw [replaceEsc_cons_bslash _ _ _ ?_]
        · rw [ih htl]
        · intro d t hdt
          cases ts with
          | nil => simp [escMid] at hdt
          | cons y ts2 =>
            cases y with
            | escn =>
              simp only [escMid, List.cons.injEq] at hdt
              rw [← hdt.1]
              decide
            | escr =>
              simp only [escMid, List.cons.injEq] at hdt
              rw [← hdt.1]
              decide
            | raw e =>
              simp only [escMid, List.cons.injEq] at hdt
              simp only [escWF, Bool.and_eq_true] at h
              have h1 := h.1
              rw [← hdt.1]
              intro he
              rw [he] at h1
              simp at h1
      · rw [replaceEsc_cons_other _ _ _ _ hc, ih htl]

theorem expandEscapes_tokens (ts : List EscTok) (h : escWF ts = true) :
    expandEscapes (escFlatten ts) = escSem ts := by
  unfold expandEscapes
  rw [replaceEsc_n_escFlatten ts h, replaceEsc_r_escMid ts h]

/-- Claim C7: escape expansion only in double quotes. A double-quoted
interior, decomposed into escapes and raw characters, post-processes to
the interior with each backslash-n and backslash-r escape turned into the
literal newline or carriage return; a single- or backtick-quoted interior
post-processes to itself verbatim, with no expansion. -/
theorem escape_expansion_only_double (w : List Char) (ts : List EscTok)
    (hwf : escWF ts = true) :
    postProcessL (dquoteC :: (escFlatten ts ++ [dquoteC])) = escSem ts
    ∧ postProcessL (squoteC :: (w ++ [squoteC])) = w
    ∧ postProcessL (bquoteC :: (w ++ [bquoteC])) = w := by
  refine ⟨?_, postProcess_squote w, postProcess_bquote w⟩
  rw [postProcess_dquote, expandEscapes_tokens ts hwf]

/-- Witness for C7: the interior a backslash-n b expands to a newline
under double quotes and stays verbatim under single quotes. -/
theorem escape_expansion_only_double_witness :
    escWF [EscTok.raw 'a', EscTok.escn, EscTok.raw 'b'] = true
    ∧ (postProcessL (dquoteC ::
          (escFlatten [EscTok.raw 'a', EscTok.escn, EscTok.raw 'b'] ++ [dquoteC]))
        = escSem [EscTok.raw 'a', EscTok.escn, EscTok.raw 'b']
      ∧ postProcessL (squoteC :: (('a' :: bslashC :: 'n' :: 'b' :: []) ++ [squoteC]))
          = 'a' :: bslashC :: 'n' :: 'b' :: []
      ∧ postProcessL (bquoteC :: (('a' :: bslashC :: 'n' :: 'b' :: []) ++ [bquoteC]))
          = 'a' :: bslashC :: 'n' :: 'b' :: []) :=
  ⟨by decide,
    escape_expansion_only_double ('a' :: bslashC :: 'n' :: 'b' :: [])
      [EscTok.raw 'a', EscTok.escn, EscTok.raw 'b'] (by decide)⟩

/-! ## The quoted-span interior language for escaped quotes -/

inductive QTok where
  | esc : QTok
  | raw : Char → QTok
deriving DecidableEq

/-- The characters of a quoted interior for quote q: each esc token is a
backslash followed by q, each raw token one character. -/
def qFlatten (q : Char) : List QTok → List Char
  | [] => []
  | QTok.esc :: ts => bslashC :: q :: qFlatten q ts
  | QTok.raw c :: ts => c :: qFlatten q ts

/-- Claim C10: escaped quote characters are never unescaped. Stripping
removes exactly the one outer pair: a single- or backtick-quoted interior
(with its backslash-quote escapes) survives verbatim, a double-quoted
interior undergoes only the backslash-n and backslash-r rewrites, and in
particular the concrete escaped-quote interiors keep their backslash. -/
theorem quoted_escape_sequences_intact (ts : List QTok) :
    postProcessL (squoteC :: (qFlatten squoteC ts ++ [squoteC])) = qFlatten squoteC ts
    ∧ postProcessL (bquoteC :: (qFlatten bquoteC ts ++ [bquoteC])) = qFlatten bquoteC ts
    ∧ postProcessL (dquoteC :: (qFlatten dquoteC ts ++ [dquoteC]))
        = expandEscapes (qFlatten dquoteC ts)
    ∧ postProcessL (squoteC :: (('a' :: bslashC :: squoteC :: 'b' :: []) ++ [squoteC]))
        = 'a' :: bslashC :: squoteC :: 'b' :: []
    ∧ postProcessL (dquoteC :: (('a' :: bslashC :: dquoteC :: 'b' :: []) ++ [dquoteC]))
        = 'a' :: bslashC :: dquoteC :: 'b' :: [] :=
  ⟨postProcess_squote _, postProcess_bquote _, postProcess_dquote _, by decide, by decide⟩

/-! ## Character class facts -/

theorem keyChar_not_ws (c : Char) (h : isKeyChar c = true) : isJsWs c = false := by
  simp only [isKeyChar, isWordChar, Bool.or_eq_true, Bool.and_eq_true,
    decide_eq_true_eq] at h
  simp only [isJsWs, Bool.or_eq_false_iff, Bool.and_eq_false_iff,
    decide_eq_false_iff_not, Bool.or_eq_true, Bool.and_eq_true, decide_eq_true_eq]
  omega

theorem keyChar_not_lineTerm (c : Char) (h : isKeyChar c = true) : isLineTerm c = false := by
  simp only [isKeyChar, isWordChar, Bool.or_eq_true, Bool.and_eq_true,
    decide_eq_true_eq] at h
  simp only [isLineTerm, Bool.or_eq_false_iff, decide_eq_false_iff_not]
  omega

theorem ws_not_keyChar (c : Char) (h : isJsWs c = true) : isKeyChar c = false := by
  simp only [isJsWs, Bool.or_eq_true, Bool.and_eq_true, decide_eq_true_eq] at h
  simp only [isKeyChar, isWordChar, Bool.or_eq_false_iff, Bool.and_eq_false_iff,
    decide_eq_false_iff_not, Bool.or_eq_true, Bool.and_eq_true, decide_eq_true_eq]
  omega

theorem ws_not_quote (c : Char) (h : isJsWs c = true) : isQuoteC c = false := by
  have h1 : ¬c = squoteC := by intro hc; rw [hc] at h; exact absurd h (by decide)
  have h2 : ¬c = dquoteC := by intro hc; rw [hc] at h; exact absurd h (by decide)
  have h3 : ¬c = bquoteC := by intro hc; rw [hc] at h; exact absurd h (by decide)
  simp [isQuoteC, h1, h2, h3]

theorem keyChar_ne_eqC (c : Char) (h : isKeyChar c = true) : ¬c = '=' := by
  intro hc
  rw [hc] at h
  simp [isKeyChar, isWordChar] at h

theorem keyChar_ne_colonC (c : Char) (h : isKeyChar c = true) : ¬c = ':' := by
  intro hc
  rw [hc] at h
  simp [isKeyChar, isWordChar] at h

theorem keyChar_ne_cr (c : Char) (h : isKeyChar c = true) : ¬c = '\r' := by
  intro hc
  rw [hc] at h
  simp [isKeyChar, isWordChar] at h

theorem plain_ne_cr (c : Char) (h : isPlainChar c = true) : ¬c = '\r' := by
  intro hc
  rw [hc] at h
  simp [isPlainChar] at h

/-! ## Combinator lemmas -/

theorem wsStar_not_ws (k : List Char → Option α) (c : Char) (t : List Char)
    (h : isJsWs c = false) : wsStar k (c :: t) = k (c :: t) := by
  simp [wsStar, h]

theorem wsStarLazy_of_k (k : List Char → Option α) (s : List Char) (r : α)
    (h : k s = some r) : wsStarLazy k s = some r := by
  cases s <;> simp [wsStarLazy, h]

/-- Greedy whitespace over a run, failing continuation everywhere: the
whole star fails. The continuation is invoked exactly at the suffixes of
the run (followed by the rest). -/
theorem wsStar_pad_none (k : List Char → Option α) (pad rest : List Char)
    (hpad : ∀ c ∈ pad, isJsWs c = true)
    (hrest : rest = [] ∨ ∃ d t, rest = d :: t ∧ isJsWs d = false)
    (hk : ∀ suf, suf <:+ pad → k (suf ++ rest) = none) :
    wsStar k (pad ++ rest) = none := by
  induction pad with
  | nil =>
    rcases hrest with h | ⟨d, t, hdt, hd⟩
    · subst h
      simpa [wsStar] using hk [] List.nil_suffix
    · subst hdt
      rw [List.nil_append, wsStar_not_ws _ _ _ hd]
      simpa using hk [] List.nil_suffix
  | cons w pad' ih =>
    have hw : isJsWs w = true := hpad w (by simp)
    show wsStar k (w :: (pad' ++ rest)) = none
    rw [wsStar]
    simp only [hw, if_true]
    rw [ih (fun c hc => hpad c (by simp [hc])) (fun suf hsuf => hk suf (hsuf.trans (List.suffix_cons w pad')))]
    simpa using hk (w :: pad') (List.suffix_refl _)

/-- A capturing-plus over its full run with the continuation succeeding at
the full extent: the greedy first attempt already succeeds. -/
theorem rplus_success (p : Char → Bool) (k : List Char → List Char → Option α) :
    ∀ (K rest acc : List Char) (r : α),
      K ≠ [] → (∀ c ∈ K, p c = true) → (∀ d t, rest = d :: t → p d = false) →
      k (acc.reverse ++ K) rest = some r →
      rplus p k acc (K ++ rest) = some r := by
  intro K
  induction K with
  | nil =>
    intro rest acc r hK
    exact absurd rfl hK
  | cons c K' ih =>
    intro rest acc r _ hall hrest hk
    have hc : p c = true := hall c (by simp)
    rw [List.cons_append, rplus]
    simp only [hc, if_true]
    cases K' with
    | nil =>
      have hrec : rplus p k (c :: acc) rest = some r := by
        cases rest with
        | nil =>
          rw [rplus]
          simp only [List.isEmpty_cons, Bool.false_eq_true, if_false]
          simpa using hk
        | cons d t =>
          have hd : p d = false := hrest d t rfl
          rw [rplus]
          simp only [hd, Bool.false_eq_true, if_false, List.isEmpty_cons]
          simpa using hk
      rw [List.nil_append, hrec]
      rfl
    | cons e K'' =>
      have hrec : rplus p k (c :: acc) ((e :: K'') ++ rest) = some r := by
        apply ih rest (c :: acc) r (by simp) (fun x hx => hall x (List.mem_cons_of_mem c hx))
          hrest
        simpa [List.append_assoc] using hk
      rw [hrec]
      rfl

/-- A capturing-plus whose continuation fails at every stop: the stops are
exactly the splits of the input whose consumed part lies inside the
matched class (together with the accumulated part nonempty). -/
theorem rplus_none (p : Char → Bool) (k : List Char → List Char → Option α) :
    ∀ (s acc : List Char),
      (∀ a b, s = a ++ b → (∀ c ∈ a, p c = true) → ¬(acc = [] ∧ a = []) →
        k (acc.reverse ++ a) b = none) →
      rplus p k acc s = none := by
  intro s
  induction s with
  | nil =>
    intro acc h
    rw [rplus]
    by_cases hacc : acc = []
    · simp [hacc]
    · have hne : acc.isEmpty = false := by simpa [List.isEmpty_iff] using hacc
      simp only [hne, Bool.false_eq_true, if_false]
      simpa using h [] [] rfl (by simp) (by simp [hacc])
  | cons c t ih =>
    intro acc h
    rw [rplus]
    cases hc : p c with
    | true =>
      simp only [if_true]
      have h1 : rplus p k (c :: acc) t = none := by
        apply ih
        intro a b hab hpa hguard
        have h2 := h (c :: a) b (by simp [hab]) ?_ (by simp)
        · simpa [List.append_assoc] using h2
        · intro x hx
          rcases List.mem_cons.mp hx with hx1 | hx2
          · rw [hx1]; exact hc
          · exact hpa x hx2
      rw [h1, oalt_none]
      by_cases hacc : acc = []
      · simp [hacc]
      · have hne : acc.isEmpty = false := by simpa [List.isEmpty_iff] using hacc
        simp only [hne, Bool.false_eq_true, if_false]
        simpa using h [] (c :: t) rfl (by simp) (by simp [hacc])
    | false =>
      simp only [Bool.false_eq_true, if_false]
      by_cases hacc : acc = []
      · simp [hacc]
      · have hne : acc.isEmpty = false := by simpa [List.isEmpty_iff] using hacc
        simp only [hne, Bool.false_eq_true, if_false]
        simpa using h [] (c :: t) rfl (by simp) (by simp [hacc])

/-- A capturing-plus at an empty accumulator fails on a head outside the
class. -/
theorem rplus_none_head (p : Char → Bool) (k : List Char → List Char → Option α)
    (d : Char) (t : List Char) (hd : p d = false) :
    rplus p k [] (d :: t) = none := by
  simp [rplus, hd]

/-! ## Scan helpers -/

theorem scanAux_nil (fuel : Nat) (ls : Bool) (acc : List (String × String)) :
    scanAux fuel ls [] acc = acc := by
  cases fuel <;> rfl

theorem scanAux_noLS : ∀ (s : List Char) (fuel : Nat) (acc : List (String × String)),
    (∀ c ∈ s, isLineTerm c = false) → scanAux fuel false s acc = acc := by
  intro s
  induction s with
  | nil => intro fuel acc _; exact scanAux_nil fuel false acc
  | cons c t ih =>
    intro fuel acc h
    cases fuel with
    | zero => rfl
    | succ f =>
      have hstep : scanAux (f + 1) false (c :: t) acc = scanAux f (isLineTerm c) t acc := rfl
      rw [hstep, h c (by simp)]
      exact ih f acc (fun x hx => h x (by simp [hx]))

theorem normalize_no_cr : ∀ (l : List Char), (∀ c ∈ l, ¬c = '\r') → normalizeNewlines l = l := by
  intro l
  induction l with
  | nil => intro _; rfl
  | cons c t ih =>
    intro h
    have hc : ¬c = '\r' := h c (by simp)
    rw [normalizeNewlines.eq_def]
    simp [hc, ih (fun x hx => h x (by simp [hx]))]

/-! ## Export branch analysis -/

theorem dropLit_some (p : List Char) : ∀ (s rest : List Char),
    dropLit p s = some rest → s = p ++ rest := by
  induction p with
  | nil =>
    intro s rest h
    simp only [dropLit, Option.some.injEq] at h
    simp [h]
  | cons c p' ih =>
    intro s rest h
    cases s with
    | nil => exact absurd h (by simp [dropLit])
    | cons d s' =>
      by_cases hd : d = c
      · simp only [dropLit, if_pos hd] at h
        rw [List.cons_append, ← ih s' rest h, hd]
      · simp only [dropLit, if_neg hd] at h
        exact absurd h (by simp)

/-- A split of a key run followed by a non-key character: the consumed
part is a true prefix of the run. -/
theorem key_run_split (K m u v : List Char) (d : Char)
    (hd : isKeyChar d = false)
    (hsplit : K ++ d :: m = u ++ v) (hu : ∀ c ∈ u, isKeyChar c = true) :
    ∃ K2, K = u ++ K2 ∧ v = K2 ++ d :: m := by
  rcases List.append_eq_append_iff.mp hsplit with ⟨w, hw1, hw2⟩ | ⟨w, hw1, hw2⟩
  · cases w with
    | nil =>
      refine ⟨[], by simpa using hw1.symm, ?_⟩
      simpa using hw2.symm
    | cons e w' =>
      exfalso
      have he : e ∈ u := by rw [hw1]; simp
      have hek : isKeyChar e = true := hu e he
      have hed : d = e := by
        have : d :: m = e :: (w' ++ v) := by simpa using hw2
        exact (List.cons.injEq _ _ _ _ ▸ this).1
      rw [hed] at hd
      rw [hek] at hd
      cases hd
  · exact ⟨w, hw1, hw2⟩

/-- After the export keyword, the mandatory whitespace then the key fail
on a whitespace run followed by a character that is neither whitespace nor
a key character. -/
theorem export_ws_check_none (k3 : List Char → List Char → Option α) (m : List Char)
    (hmws : ∃ pad d t₀, m = pad ++ d :: t₀ ∧ (∀ c ∈ pad, isJsWs c = true)
        ∧ isKeyChar d = false ∧ isJsWs d = false) :
    (match m with
     | c :: t => if isJsWs c then wsStar (rplus isKeyChar k3 []) t else none
     | [] => none) = none := by
  obtain ⟨pad, d, t₀, hm1, hpad, hdk, hdw⟩ := hmws
  subst hm1
  cases pad with
  | nil => simp [hdw]
  | cons w1 pad' =>
    have hw1ws : isJsWs w1 = true := hpad w1 (by simp)
    simp only [List.cons_append, hw1ws, if_true]
    apply wsStar_pad_none _ pad' (d :: t₀) (fun c hc => hpad c (by simp [hc]))
      (Or.inr ⟨d, t₀, rfl, hdw⟩)
    intro suf hsuf
    cases suf with
    | nil => exact rplus_none_head _ _ _ _ hdk
    | cons x suf' =>
      have hx : isJsWs x = true := hpad x (by
        have hxm : x ∈ pad' := hsuf.subset (by simp)
        simp [hxm])
      exact rplus_none_head _ _ _ _ (ws_not_keyChar x hx)

/-- The export branch fails on a key followed by a separator-like tail. -/
theorem exportBranch_none (k3 : List Char → List Char → Option α) (K m : List Char)
    (hkey : ∀ c ∈ K, isKeyChar c = true)
    (hm : ∀ e ∈ ("export".data), ∀ t, ¬m = e :: t)
    (hmws : ∃ pad d t₀, m = pad ++ d :: t₀ ∧ (∀ c ∈ pad, isJsWs c = true)
        ∧ isKeyChar d = false ∧ isJsWs d = false) :
    exportBranch (rplus isKeyChar k3 []) (K ++ m) = none := by
  unfold exportBranch
  cases hdl : dropLit ("export".data) (K ++ m) with
  | none => rfl
  | some rest =>
    have hsplit : K ++ m = "export".data ++ rest := dropLit_some _ _ _ hdl
    rcases List.append_eq_append_iff.mp hsplit with ⟨w, hw1, hw2⟩ | ⟨w, hw1, hw2⟩
    · cases w with
      | nil =>
        have hrest : rest = m := by simpa using hw2.symm
        rw [hrest]
        exact export_ws_check_none k3 m hmws
      | cons e w' =>
        exfalso
        have he : e ∈ ("export".data) := by rw [hw1]; simp
        exact hm e he (w' ++ rest) (by simpa using hw2)
    · cases w with
      | nil =>
        have hrest : rest = m := by simpa using hw2
        rw [hrest]
        exact export_ws_check_none k3 m hmws
      | cons e w' =>
        have he : isKeyChar e = true := hkey e (by rw [hw1]; simp)
        have hrest : rest = e :: (w' ++ m) := by simpa using hw2
        rw [hrest]
        simp [keyChar_not_ws e he]

/-! ## Separator lemmas -/

theorem sepAlt_eq_head (k : List Char → Option α) (t : List Char) (r : α)
    (hk : k t = some r) : sepAlt k ('=' :: t) = some r := by
  have h1 : eqSep k ('=' :: t) = wsStarLazy k t := by
    unfold eqSep
    rw [wsStar_not_ws _ _ _ (by decide)]
    rfl
  unfold sepAlt
  rw [h1, wsStarLazy_of_k k t r hk]
  rfl

theorem sepAlt_sp_eq (k : List Char → Option α) (t : List Char) (r : α)
    (hk : k t = some r) : sepAlt k (' ' :: '=' :: t) = some r := by
  have h2 : wsStar
      (fun s1 =>
        match s1 with
        | c :: t' => if c = '=' then wsStarLazy k t' else none
        | [] => none) ('=' :: t) = wsStarLazy k t := by
    rw [wsStar_not_ws _ _ _ (by decide)]
    rfl
  have h1 : eqSep k (' ' :: '=' :: t) = some r := by
    unfold eqSep
    rw [wsStar]
    simp only [show isJsWs ' ' = true from by decide, if_true]
    rw [h2, wsStarLazy_of_k k t r hk]
    rfl
  unfold sepAlt
  rw [h1]
  rfl

theorem sepAlt_colon_sp (k : List Char → Option α) (u : List Char) (r : α)
    (hk : k u = some r) : sepAlt k (':' :: ' ' :: u) = some r := by
  have h1 : eqSep k (':' :: ' ' :: u) = none := by
    unfold eqSep
    rw [wsStar_not_ws _ _ _ (by decide)]
    rfl
  unfold sepAlt
  rw [h1, oalt_none]
  unfold colonSep
  simp only [if_pos rfl, show isJsWs ' ' = true from by decide, if_true]
  exact wsStarLazy_of_k k u r hk

theorem sepAlt_none_other (k : List Char → Option α) (d : Char) (t : List Char)
    (h1 : ¬d = '=') (h2 : ¬d = ':') (h3 : isJsWs d = false) :
    sepAlt k (d :: t) = none := by
  have he : eqSep k (d :: t) = none := by
    unfold eqSep
    rw [wsStar_not_ws _ _ _ h3]
    simp [h1]
  have hc : colonSep k (d :: t) = none := by
    unfold colonSep
    simp [h2]
  unfold sepAlt
  rw [he, oalt_none, hc]

theorem sepAlt_none_colon_nonws (k : List Char → Option α) (t : List Char)
    (ht : t = [] ∨ ∃ d u, t = d :: u ∧ isJsWs d = false) :
    sepAlt k (':' :: t) = none := by
  have he : eqSep k (':' :: t) = none := by
    unfold eqSep
    rw [wsStar_not_ws _ _ _ (by decide)]
    rfl
  have hc : colonSep k (':' :: t) = none := by
    unfold colonSep
    rcases ht with h | ⟨d, u, hdu, hd⟩
    · subst h; simp
    · subst hdu; simp [hd]
  unfold sepAlt
  rw [he, oalt_none, hc]

theorem sepAlt_none_sp_colon (k : List Char → Option α) (t : List Char) :
    sepAlt k (' ' :: ':' :: t) = none := rfl

/-! ## Value group lemmas -/

theorem quoteAfterWs_none (q : Char) (k : List Char → List Char → Option α)
    (ws : List Char) (d : Char) (t : List Char) (hd : ¬d = q) :
    quoteAfterWs q k ws (d :: t) = none := by
  simp [quoteAfterWs, hd]

theorem quoteBranch_pad_none (q : Char) (k : List Char → List Char → Option α) :
    ∀ (pad V acc : List Char),
      (∀ c ∈ pad, isJsWs c = true) →
      (∀ c ∈ pad, ¬c = q) →
      (∃ d t, V = d :: t ∧ isJsWs d = false ∧ ¬d = q) →
      wsStarCap (quoteAfterWs q k) acc (pad ++ V) = none := by
  intro pad
  induction pad with
  | nil =>
    intro V acc _ _ hV
    obtain ⟨d, t, hdt, hdw, hdq⟩ := hV
    subst hdt
    show wsStarCap (quoteAfterWs q k) acc (d :: t) = none
    rw [wsStarCap]
    simp only [hdw, Bool.false_eq_true, if_false]
    exact quoteAfterWs_none q k _ d t hdq
  | cons w pad' ih =>
    intro V acc hpad hpq hV
    have hw : isJsWs w = true := hpad w (by simp)
    show wsStarCap (quoteAfterWs q k) acc (w :: (pad' ++ V)) = none
    rw [wsStarCap]
    simp only [hw, if_true]
    rw [ih V (w :: acc) (fun c hc => hpad c (by simp [hc]))
      (fun c hc => hpq c (by simp [hc])) hV]
    rw [oalt_none]
    exact quoteAfterWs_none q k _ w _ (hpq w (by simp))

theorem valueOpt_plain (k : Option (List Char) → List Char → Option α)
    (pad V : List Char) (r : α)
    (hpad : ∀ c ∈ pad, isJsWs c = true)
    (hV : ∃ d t, V = d :: t ∧ isJsWs d = false ∧ isQuoteC d = false)
    (hplain : ∀ c ∈ pad ++ V, isPlainChar c = true)
    (hk : k (some (pad ++ V)) [] = some r) :
    valueOpt k (pad ++ V) = some r := by
  obtain ⟨d, t, hdt, hdw, hdq⟩ := hV
  have hq : ∀ q, isQuoteC q = true →
      quoteBranch q (fun cap s1 => k (some cap) s1) (pad ++ V) = none := by
    intro q hqq
    unfold quoteBranch
    apply quoteBranch_pad_none q _ pad V [] hpad
    · intro c hc
      intro hcq
      have hws := ws_not_quote c (hpad c hc)
      rw [hcq, hqq] at hws
      cases hws
    · refine ⟨d, t, hdt, hdw, ?_⟩
      intro hdq2
      rw [hdq2, hqq] at hdq
      cases hdq
  have hVne : pad ++ V ≠ [] := by
    subst hdt
    simp
  have hrp : rplus isPlainChar (fun cap s1 => k (some cap) s1) [] ((pad ++ V) ++ []) = some r := by
    apply rplus_success isPlainChar _ (pad ++ V) [] [] r hVne hplain
      (fun d' t' h => by cases h)
    simpa using hk
  rw [List.append_nil] at hrp
  unfold valueOpt
  rw [hq squoteC (by decide), oalt_none, hq dquoteC (by decide), oalt_none,
    hq bquoteC (by decide), oalt_none, hrp]
  rfl

theorem valueOpt_nil (k : Option (List Char) → List Char → Option α) :
    valueOpt k [] = k none [] := rfl

/-- The tail of the LINE pattern at the end of input succeeds. -/
theorem trail_nil (key : List Char) (v : Option (List Char)) :
    wsStar (commentOpt (eolCheck
      (fun s8 => some (key, v, s8)))) [] = some (key, v, ([] : List Char)) := rfl

/-! ## Post-processing of unquoted values -/

theorem stripQuotesAux_false : ∀ (s : List Char) (fuel : Nat),
    (∀ c ∈ s, isLineTerm c = false) → stripQuotesAux fuel false s = s := by
  intro s
  induction s with
  | nil => intro fuel _; cases fuel <;> rfl
  | cons c t ih =>
    intro fuel h
    cases fuel with
    | zero => rfl
    | succ f =>
      have hstep : stripQuotesAux (f + 1) false (c :: t)
          = c :: stripQuotesAux f (isLineTerm c) t := rfl
      rw [hstep, h c (by simp), ih f (fun x hx => h x (by simp [hx]))]

theorem stripQuotes_plain (V : List Char)
    (hhead : ∀ d t, V = d :: t → isQuoteC d = false)
    (hlt : ∀ c ∈ V, isLineTerm c = false) :
    stripQuotes V = V := by
  cases V with
  | nil => rfl
  | cons d t =>
    unfold stripQuotes
    show stripQuotesAux (t.length + 1) true (d :: t) = d :: t
    have hq : isQuoteC d = false := hhead d t rfl
    have hstep : stripQuotesAux (t.length + 1) true (d :: t)
        = if true && isQuoteC d then
            (match findClose d t with
             | some (mid, rest) => mid ++ stripQuotesAux t.length false rest
             | none => d :: stripQuotesAux t.length (isLineTerm d) t)
          else d :: stripQuotesAux t.length (isLineTerm d) t := rfl
    rw [hstep, hq]
    simp only [Bool.and_false, Bool.false_eq_true, if_false]
    rw [hlt d (by simp), stripQuotesAux_false t t.length (fun x hx => hlt x (by simp [hx]))]

theorem trimList_plain (pad V : List Char)
    (hpad : ∀ c ∈ pad, isJsWs c = true)
    (hVhead : ∀ d t, V = d :: t → isJsWs d = false)
    (hVlast : ∀ d, V.getLast? = some d → isJsWs d = false) :
    trimList (pad ++ V) = V := by
  unfold trimList
  have h1 : (pad ++ V).dropWhile isJsWs = V := by
    induction pad with
    | nil =>
      cases V with
      | nil => rfl
      | cons d t => exact List.dropWhile_cons_of_neg (by simp [hVhead d t rfl])
    | cons w pad' ih =>
      rw [List.cons_append, List.dropWhile_cons_of_pos (by simp [hpad w (by simp)])]
      exact ih (fun c hc => hpad c (by simp [hc]))
  rw [h1]
  have h2 : V.reverse.dropWhile isJsWs = V.reverse := by
    cases hrev : V.reverse with
    | nil => rfl
    | cons d t' =>
      apply List.dropWhile_cons_of_neg
      have hlast : V.getLast? = some d := by
        rw [← List.head?_reverse, hrev]
        rfl
      simp [hVlast d hlast]
  rw [h2, List.reverse_reverse]

theorem postProcess_plain (pad V : List Char)
    (hpad : ∀ c ∈ pad, isJsWs c = true)
    (hVne : V ≠ [])
    (hVhead : ∀ d t, V = d :: t → isJsWs d = false ∧ isQuoteC d = false)
    (hVlast : ∀ d, V.getLast? = some d → isJsWs d = false)
    (hlt : ∀ c ∈ V, isLineTerm c = false) :
    postProcessL (pad ++ V) = V := by
  have h1 : trimList (pad ++ V) = V :=
    trimList_plain pad V hpad (fun d t h => (hVhead d t h).1) hVlast
  have h2 : stripQuotes V = V := stripQuotes_plain V (fun d t h => (hVhead d t h).2) hlt
  unfold postProcessL
  simp only [h1, h2]
  obtain ⟨d, t, hdt⟩ : ∃ d t, V = d :: t := by
    cases V with
    | nil => exact absurd rfl hVne
    | cons a b => exact ⟨a, b, rfl⟩
  subst hdt
  have hq : isQuoteC d = false := (hVhead d t rfl).2
  have hd : ¬d = dquoteC := by
    intro h
    rw [h] at hq
    exact absurd hq (by decide)
  simp [hd]

/-! ## LINE matches on separator forms -/

theorem wsStar_head_key (k : List Char → Option α) (K m : List Char) (hK : K ≠ [])
    (hkey : ∀ c ∈ K, isKeyChar c = true) :
    wsStar k (K ++ m) = k (K ++ m) := by
  obtain ⟨kc, K', hKc⟩ : ∃ kc K', K = kc :: K' := by
    cases K with
    | nil => exact absurd rfl hK
    | cons a b => exact ⟨a, b, rfl⟩
  subst hKc
  rw [List.cons_append, wsStar_not_ws _ _ _ (keyChar_not_ws kc (hkey kc (by simp))),
    ← List.cons_append]

theorem export_head_mismatch (m : List Char) (d : Char) (t₁ : List Char)
    (hm : m = d :: t₁) (hd : ¬d ∈ ("export".data)) :
    ∀ e ∈ ("export".data), ∀ t, ¬m = e :: t := by
  intro e he t hme
  rw [hm] at hme
  injection hme with h1 _
  rw [h1] at hd
  exact hd he

theorem matchAt_eq_direct (K V : List Char)
    (hK : K ≠ []) (hkey : ∀ c ∈ K, isKeyChar c = true)
    (hV : ∃ d t, V = d :: t ∧ isJsWs d = false ∧ isQuoteC d = false)
    (hplain : ∀ c ∈ V, isPlainChar c = true) :
    matchAt (K ++ '=' :: V) = some (K, some V, []) := by
  unfold matchAt
  rw [wsStar_head_key _ K ('=' :: V) hK hkey]
  unfold exportOpt
  rw [exportBranch_none _ K ('=' :: V) hkey
    (export_head_mismatch _ '=' V rfl (by decide))
    ⟨[], '=', V, rfl, by simp, by decide, by decide⟩, oalt_none]
  refine rplus_success isKeyChar _ K ('=' :: V) [] _ hK hkey ?_ ?_
  · intro d' t' h
    injection h with h1 _
    rw [← h1]
    decide
  · simp only [List.reverse_nil, List.nil_append]
    apply sepAlt_eq_head
    exact valueOpt_plain _ [] V _ (by simp) hV (by simpa using hplain)
      (trail_nil K (some V))

theorem matchAt_sp_eq (K V : List Char)
    (hK : K ≠ []) (hkey : ∀ c ∈ K, isKeyChar c = true)
    (hV : ∃ d t, V = d :: t ∧ isJsWs d = false ∧ isQuoteC d = false)
    (hplain : ∀ c ∈ V, isPlainChar c = true) :
    matchAt (K ++ ' ' :: '=' :: ' ' :: V) = some (K, some (' ' :: V), []) := by
  unfold matchAt
  rw [wsStar_head_key _ K (' ' :: '=' :: ' ' :: V) hK hkey]
  unfold exportOpt
  rw [exportBranch_none _ K (' ' :: '=' :: ' ' :: V) hkey
    (export_head_mismatch _ ' ' ('=' :: ' ' :: V) rfl (by decide))
    ⟨[' '], '=', ' ' :: V, rfl, by decide, by decide, by decide⟩, oalt_none]
  refine rplus_success isKeyChar _ K (' ' :: '=' :: ' ' :: V) [] _ hK hkey ?_ ?_
  · intro d' t' h
    injection h with h1 _
    rw [← h1]
    decide
  · simp only [List.reverse_nil, List.nil_append]
    apply sepAlt_sp_eq
    exact valueOpt_plain _ [' '] V _ (by decide) hV
      (by
        intro c hc
        rcases List.mem_append.mp hc with hc1 | hc2
        · simp at hc1
          rw [hc1]
          decide
        · exact hplain c hc2)
      (trail_nil K (some (' ' :: V)))

theorem matchAt_colon_sp (K V : List Char)
    (hK : K ≠ []) (hkey : ∀ c ∈ K, isKeyChar c = true)
    (hV : ∃ d t, V = d :: t ∧ isJsWs d = false ∧ isQuoteC d = false)
    (hplain : ∀ c ∈ V, isPlainChar c = true) :
    matchAt (K ++ ':' :: ' ' :: V) = some (K, some V, []) := by
  unfold matchAt
  rw [wsStar_head_key _ K (':' :: ' ' :: V) hK hkey]
  unfold exportOpt
  rw [exportBranch_none _ K (':' :: ' ' :: V) hkey
    (export_head_mismatch _ ':' (' ' :: V) rfl (by decide))
    ⟨[], ':', ' ' :: V, rfl, by simp, by decide, by decide⟩, oalt_none]
  refine rplus_success isKeyChar _ K (':' :: ' ' :: V) [] _ hK hkey ?_ ?_
  · intro d' t' h
    injection h with h1 _
    rw [← h1]
    decide
  · simp only [List.reverse_nil, List.nil_append]
    apply sepAlt_colon_sp
    exact valueOpt_plain _ [] V _ (by simp) hV (by simpa using hplain)
      (trail_nil K (some V))

theorem matchAt_empty_rhs (K : List Char)
    (hK : K ≠ []) (hkey : ∀ c ∈ K, isKeyChar c = true) :
    matchAt (K ++ ['=']) = some (K, none, []) := by
  unfold matchAt
  rw [wsStar_head_key _ K ['='] hK hkey]
  unfold exportOpt
  rw [exportBranch_none _ K ['='] hkey
    (export_head_mismatch _ '=' [] rfl (by decide))
    ⟨[], '=', [], rfl, by simp, by decide, by decide⟩, oalt_none]
  refine rplus_success isKeyChar _ K ['='] [] _ hK hkey ?_ ?_
  · intro d' t' h
    injection h with h1 _
    rw [← h1]
    decide
  · simp only [List.reverse_nil, List.nil_append]
    apply sepAlt_eq_head
    exact trail_nil K none

theorem matchAt_colon_none (K V : List Char)
    (hK : K ≠ []) (hkey : ∀ c ∈ K, isKeyChar c = true)
    (hVhead : ∀ d t, V = d :: t → isJsWs d = false) :
    matchAt (K ++ ':' :: V) = none := by
  unfold matchAt
  rw [wsStar_head_key _ K (':' :: V) hK hkey]
  unfold exportOpt
  rw [exportBranch_none _ K (':' :: V) hkey
    (export_head_mismatch _ ':' V rfl (by decide))
    ⟨[], ':', V, rfl, by simp, by decide, by decide⟩, oalt_none]
  apply rplus_none
  intro a b hab hpa _
  obtain ⟨K2, hK2, hb⟩ := key_run_split K V a b ':' (by decide) hab hpa
  subst hb
  cases K2 with
  | nil =>
    apply sepAlt_none_colon_nonws
    cases V with
    | nil => exact Or.inl rfl
    | cons d t => exact Or.inr ⟨d, t, rfl, hVhead d t rfl⟩
  | cons e K2' =>
    have he : isKeyChar e = true := hkey e (by rw [hK2]; simp)
    rw [List.cons_append]
    exact sepAlt_none_other _ e _ (keyChar_ne_eqC e he) (keyChar_ne_colonC e he)
      (keyChar_not_ws e he)

theorem matchAt_sp_colon_none (K V : List Char)
    (hK : K ≠ []) (hkey : ∀ c ∈ K, isKeyChar c = true) :
    matchAt (K ++ ' ' :: ':' :: ' ' :: V) = none := by
  unfold matchAt
  rw [wsStar_head_key _ K (' ' :: ':' :: ' ' :: V) hK hkey]
  unfold exportOpt
  rw [exportBranch_none _ K (' ' :: ':' :: ' ' :: V) hkey
    (export_head_mismatch _ ' ' (':' :: ' ' :: V) rfl (by decide))
    ⟨[' '], ':', ' ' :: V, rfl, by decide, by decide, by decide⟩, oalt_none]
  apply rplus_none
  intro a b hab hpa _
  obtain ⟨K2, hK2, hb⟩ := key_run_split K (':' :: ' ' :: V) a b ' ' (by decide) hab hpa
  subst hb
  cases K2 with
  | nil => exact sepAlt_none_sp_colon _ _
  | cons e K2' =>
    have he : isKeyChar e = true := hkey e (by rw [hK2]; simp)
    rw [List.cons_append]
    exact sepAlt_none_other _ e _ (keyChar_ne_eqC e he) (keyChar_ne_colonC e he)
      (keyChar_not_ws e he)

/-! ## Parse runs on whole sources -/

theorem scan_single (l : List Char) (key : List Char) (v : Option (List Char)) (fuel : Nat)
    (hmatch : matchAt l = some (key, v, [])) (hne : l ≠ []) :
    scanAux (fuel + 1) true l []
      = [(String.mk key, String.mk (postProcessL (v.getD [])))] := by
  obtain ⟨c, t, hct⟩ : ∃ c t, l = c :: t := by
    cases l with
    | nil => exact absurd rfl hne
    | cons a b => exact ⟨a, b, rfl⟩
  subst hct
  have h1 : scanAux (fuel + 1) true (c :: t) []
      = (match matchAt (c :: t) with
         | some (key, v, rest) =>
           scanAux fuel (scanStep (c :: t) rest true) rest
             ([] ++ [(String.mk key, String.mk (postProcessL (v.getD [])))])
         | none => scanAux fuel (isLineTerm c) t []) := rfl
  rw [h1, hmatch]
  exact scanAux_nil _ _ _

theorem scan_none (l : List Char) (fuel : Nat)
    (hmatch : matchAt l = none) (hlt : ∀ c ∈ l, isLineTerm c = false) :
    scanAux fuel true l [] = [] := by
  cases l with
  | nil => exact scanAux_nil _ _ _
  | cons c t =>
    cases fuel with
    | zero => rfl
    | succ f =>
      have h1 : scanAux (f + 1) true (c :: t) []
          = (match matchAt (c :: t) with
             | some (key, v, rest) =>
               scanAux f (scanStep (c :: t) rest true) rest
                 ([] ++ [(String.mk key, String.mk (postProcessL (v.getD [])))])
             | none => scanAux f (isLineTerm c) t []) := rfl
      rw [h1, hmatch, hlt c (by simp)]
      exact scanAux_noLS t f [] (fun x hx => hlt x (by simp [hx]))

theorem strMk_data (s : String) : String.mk s.data = s := rfl

theorem parse_of_single (src : String) (key : List Char) (v : Option (List Char))
    (hnorm : normalizeNewlines src.data = src.data)
    (hmatch : matchAt src.data = some (key, v, []))
    (hne : src.data ≠ []) :
    parse src = [(String.mk key, String.mk (postProcessL (v.getD [])))] := by
  unfold parse envTrace
  simp only [hnorm]
  rw [scan_single src.data key v src.data.length hmatch hne]
  rfl

theorem parse_of_none (src : String)
    (hnorm : normalizeNewlines src.data = src.data)
    (hmatch : matchAt src.data = none)
    (hlt : ∀ c ∈ src.data, isLineTerm c = false) :
    parse src = [] := by
  unfold parse envTrace
  simp only [hnorm]
  rw [scan_none src.data (src.data.length + 1) hmatch hlt]
  rfl

/-! ## Key and bare-value side conditions -/

/-- A nonempty word of key characters. -/
def isKeyStringB (K : String) : Bool :=
  !K.data.isEmpty && K.data.all isKeyChar

/-- A nonempty unquoted value: plain characters only (no hash, no line
break of any kind), not starting with whitespace or a quote, not ending
with whitespace. -/
def isBareValueStringB (V : String) : Bool :=
  !V.data.isEmpty
  && V.data.all (fun c => isPlainChar c && !isLineTerm c)
  && (match V.data.head? with
      | some d => !isJsWs d && !isQuoteC d
      | none => false)
  && (match V.data.getLast? with
      | some d => !isJsWs d
      | none => false)

theorem keyStringB_spec (K : String) (h : isKeyStringB K = true) :
    K.data ≠ [] ∧ ∀ c ∈ K.data, isKeyChar c = true := by
  simp only [isKeyStringB, Bool.and_eq_true, Bool.not_eq_true', List.isEmpty_iff,
    List.all_eq_true] at h
  exact ⟨by simpa [List.isEmpty_iff] using h.1, h.2⟩

theorem bareValueB_spec (V : String) (h : isBareValueStringB V = true) :
    V.data ≠ []
    ∧ (∀ c ∈ V.data, isPlainChar c = true ∧ isLineTerm c = false)
    ∧ (∀ d t, V.data = d :: t → isJsWs d = false ∧ isQuoteC d = false)
    ∧ (∀ d, V.data.getLast? = some d → isJsWs d = false) := by
  simp only [isBareValueStringB, Bool.and_eq_true, List.all_eq_true] at h
  obtain ⟨⟨⟨h1, h2⟩, h3⟩, h4⟩ := h
  refine ⟨?_, ?_, ?_, ?_⟩
  · simpa [List.isEmpty_iff] using h1
  · intro c hc
    have := h2 c hc
    simp only [Bool.and_eq_true, Bool.not_eq_true'] at this
    exact this
  · intro d t hdt
    rw [hdt] at h3
    simp only [List.head?_cons, Bool.and_eq_true, Bool.not_eq_true'] at h3
    exact h3
  · intro d hd
    rw [hd] at h4
    simpa using h4

/-- Membership facts distributed over a key, separator, value split. -/
theorem mix_prop (P : Char → Prop) (K mid V : List Char)
    (hK : ∀ c ∈ K, P c) (hmid : ∀ c ∈ mid, P c) (hV : ∀ c ∈ V, P c) :
    ∀ c ∈ K ++ (mid ++ V), P c := by
  intro c hc
  rcases List.mem_append.mp hc with h | h
  · exact hK c h
  · rcases List.mem_append.mp h with h1 | h2
    · exact hmid c h1
    · exact hV c h2

/-- Claim C6 (amended): the built-in separator is either an equals sign
surrounded by optional whitespace, or a colon with no whitespace before it
and at least one whitespace character after it. For every key K of word
characters, dots and dashes and every bare unquoted value V, the
declarations K=V, K = V and K: V each parse to a mapping binding K to V,
while K:V and K : V match nothing and bind nothing. -/
theorem separator_forms (K V : String)
    (hKb : isKeyStringB K = true) (hVb : isBareValueStringB V = true) :
    parse (K ++ "=" ++ V) = [(K, V)]
    ∧ parse (K ++ " = " ++ V) = [(K, V)]
    ∧ parse (K ++ ": " ++ V) = [(K, V)]
    ∧ parse (K ++ ":" ++ V) = []
    ∧ parse (K ++ " : " ++ V) = [] := by
  obtain ⟨hKne, hkey⟩ := keyStringB_spec K hKb
  obtain ⟨hVne, hVpl, hVhead, hVlast⟩ := bareValueB_spec V hVb
  have hVex : ∃ d t, V.data = d :: t ∧ isJsWs d = false ∧ isQuoteC d = false := by
    cases hVd : V.data with
    | nil => exact absurd hVd hVne
    | cons d t => exact ⟨d, t, rfl, (hVhead d t hVd).1, (hVhead d t hVd).2⟩
  have hplain : ∀ c ∈ V.data, isPlainChar c = true := fun c hc => (hVpl c hc).1
  have hVlt : ∀ c ∈ V.data, isLineTerm c = false := fun c hc => (hVpl c hc).2
  have hncr : ∀ c ∈ K.data, ¬c = '\r' := fun c hc => keyChar_ne_cr c (hkey c hc)
  have hvcr : ∀ c ∈ V.data, ¬c = '\r' := fun c hc => plain_ne_cr c (hplain c hc)
  have hKlt : ∀ c ∈ K.data, isLineTerm c = false :=
    fun c hc => keyChar_not_lineTerm c (hkey c hc)
  have hppV : postProcessL V.data = V.data :=
    postProcess_plain [] V.data (by simp) hVne hVhead hVlast hVlt
  have hppSpV : postProcessL (' ' :: V.data) = V.data :=
    postProcess_plain [' '] V.data (by decide) hVne hVhead hVlast hVlt
  refine ⟨?_, ?_, ?_, ?_, ?_⟩
  · have hd1 : (K ++ "=" ++ V).data = K.data ++ ((['='] : List Char) ++ V.data) := by
      simp [String.data_append]
    rw [parse_of_single (K ++ "=" ++ V) K.data (some V.data)
      (by rw [hd1]; exact normalize_no_cr _ (mix_prop _ _ _ _ hncr (by decide) hvcr))
      (by rw [hd1]; exact matchAt_eq_direct K.data V.data hKne hkey hVex hplain)
      (by rw [hd1]; simp)]
    show [(String.mk K.data, String.mk (postProcessL V.data))] = [(K, V)]
    rw [hppV]
  · have hd1 : (K ++ " = " ++ V).data
        = K.data ++ (([' ', '=', ' '] : List Char) ++ V.data) := by
      simp [String.data_append]
    rw [parse_of_single (K ++ " = " ++ V) K.data (some (' ' :: V.data))
      (by rw [hd1]; exact normalize_no_cr _ (mix_prop _ _ _ _ hncr (by decide) hvcr))
      (by rw [hd1]; exact matchAt_sp_eq K.data V.data hKne hkey hVex hplain)
      (by rw [hd1]; simp)]
    show [(String.mk K.data, String.mk (postProcessL (' ' :: V.data)))] = [(K, V)]
    rw [hppSpV]
  · have hd1 : (K ++ ": " ++ V).data
        = K.data ++ (([':', ' '] : List Char) ++ V.data) := by
      simp [String.data_append]
    rw [parse_of_single (K ++ ": " ++ V) K.data (some V.data)
      (by rw [hd1]; exact normalize_no_cr _ (mix_prop _ _ _ _ hncr (by decide) hvcr))
      (by rw [hd1]; exact matchAt_colon_sp K.data V.data hKne hkey hVex hplain)
      (by rw [hd1]; simp)]
    show [(String.mk K.data, String.mk (postProcessL V.data))] = [(K, V)]
    rw [hppV]
  · have hd1 : (K ++ ":" ++ V).data = K.data ++ (([':'] : List Char) ++ V.data) := by
      simp [String.data_append]
    have hmn := matchAt_colon_none K.data V.data hKne hkey (fun d t hdt => (hVhead d t hdt).1)
    exact parse_of_none (K ++ ":" ++ V)
      (by rw [hd1]; exact normalize_no_cr _ (mix_prop _ _ _ _ hncr (by decide) hvcr))
      (by rw [hd1]; exact hmn)
      (by rw [hd1]; exact mix_prop _ _ _ _ hKlt (by decide) hVlt)
  · have hd1 : (K ++ " : " ++ V).data
        = K.data ++ (([' ', ':', ' '] : List Char) ++ V.data) := by
      simp [String.data_append]
    exact parse_of_none (K ++ " : " ++ V)
      (by rw [hd1]; exact normalize_no_cr _ (mix_prop _ _ _ _ hncr (by decide) hvcr))
      (by rw [hd1]; exact matchAt_sp_colon_none K.data V.data hKne hkey)
      (by rw [hd1]; exact mix_prop _ _ _ _ hKlt (by decide) hVlt)

/-- Counterexample to C6 as stated: the declarations A:B and A : B do not
bind A at all. -/
theorem separator_counterexample :
    parse "A:B" = [] ∧ getObj (parse "A:B") "A" = none
    ∧ parse "A : B" = [] ∧ getObj (parse "A : B") "A" = none := by
  refine ⟨by decide, by decide, by decide, by decide⟩

/-- Witness for the amended C6 at A and B. -/
theorem separator_forms_witness :
    isKeyStringB "A" = true ∧ isBareValueStringB "B" = true
    ∧ (parse ("A" ++ "=" ++ "B") = [("A", "B")]
      ∧ parse ("A" ++ " = " ++ "B") = [("A", "B")]
      ∧ parse ("A" ++ ": " ++ "B") = [("A", "B")]
      ∧ parse ("A" ++ ":" ++ "B") = []
      ∧ parse ("A" ++ " : " ++ "B") = []) :=
  ⟨by decide, by decide, separator_forms "A" "B" (by decide) (by decide)⟩

/-- Claim C8: a declaration with the separator present and nothing after
it parses to the key bound to the empty string, not to a missing key. -/
theorem empty_rhs_empty_string (K : String) (hKb : isKeyStringB K = true) :
    parse (K ++ "=") = [(K, "")] ∧ getObj (parse (K ++ "=")) K = some "" := by
  obtain ⟨hKne, hkey⟩ := keyStringB_spec K hKb
  have hd : (K ++ "=").data = K.data ++ (['='] : List Char) := by
    rw [String.data_append]
  have hp : parse (K ++ "=") = [(K, "")] := by
    rw [parse_of_single (K ++ "=") K.data none
      (by
        rw [hd]
        exact normalize_no_cr _
          (mix_prop (fun c => ¬c = '\r') K.data ['='] []
            (fun c hc => keyChar_ne_cr c (hkey c hc)) (by decide) (by simp)))
      (by rw [hd]; exact matchAt_empty_rhs K.data hKne hkey)
      (by rw [hd]; simp)]
    rfl
  refine ⟨hp, ?_⟩
  rw [hp]
  simp [getObj]

/-- Witness for C8 at the key A. -/
theorem empty_rhs_empty_string_witness :
    isKeyStringB "A" = true
    ∧ (parse ("A" ++ "=") = [("A", "")]
      ∧ getObj (parse ("A" ++ "=")) "A" = some "") :=
  ⟨by decide, empty_rhs_empty_string "A" (by decide)⟩

end Exdenv
